import Mathlib

/-! redict.c : a length filter for word lists

A shallow embedding of `redict.c` (timwking1/redict) and theorems about it.

Modelling conventions.

* A byte (`char`) is a natural number; the three bytes the program looks at are
  `NUL = 0`, `LF = 10` (`'\n'`) and `CR = 13` (`'\r'`).
* An input stream (`FILE*` opened for reading) is the finite list of bytes that
  remain to be read.  A read error is not distinguished from end of file by the
  program (`fgets` returns `NULL` in both cases), so a stream that fails is a
  stream that ends.
* An output stream is the list of bytes written so far.
* `uint32_t` values are natural numbers reduced modulo `2 ^ 32` wherever the C
  code computes them.
* A C string (`char*`, such as an entry of `argv`) is the list of its characters
  before the terminating NUL; a `NULL` pointer is `none`.
-/

namespace Redict

/-- A byte of a file. -/
abbrev Byte := Nat

/-- The string terminator `'\0'`. -/
def NUL : Byte := 0

/-- The line feed `'\n'`. -/
def LF : Byte := 10

/-- The carriage return `'\r'`. -/
def CR : Byte := 13

/-- `#define MAX_WORDLEN 255`. -/
def MAX_WORDLEN : Nat := 255

/-- `sizeof(buffer)` for `char buffer[MAX_WORDLEN + 2]`. -/
def BUFFER_SIZE : Nat := MAX_WORDLEN + 2

/-- Reduction of a natural number to `uint32_t`. -/
def u32 (n : Nat) : Nat := n % 2 ^ 32

/-! ## The C library functions used by the filter loop -/

/-- The bytes `fgets` takes from a stream when it may still store `k` bytes:
it stops after `k` bytes, after a line feed (which is stored), or at the end of
the stream.  Returns the bytes stored and the rest of the stream. -/
def fgetsRead : Nat → List Byte → List Byte × List Byte
  | 0, s => ([], s)
  | _ + 1, [] => ([], [])
  | k + 1, c :: s =>
    if c = LF then ([c], s) else (c :: (fgetsRead k s).1, (fgetsRead k s).2)

/-- `fgets(buffer, n, fp)`: reads at most `n - 1` bytes and stores them followed
by a NUL.  Returns `none` (`NULL`) when the stream is at its end and no byte was
read, and otherwise the buffer contents up to and including the NUL that `fgets`
appends, together with the rest of the stream. -/
def fgets (n : Nat) (fp : List Byte) : Option (List Byte × List Byte) :=
  match fp with
  | [] => none
  | _ :: _ => some ((fgetsRead (n - 1) fp).1 ++ [NUL], (fgetsRead (n - 1) fp).2)

/-- `strlen(buffer)`: the number of bytes before the first NUL. -/
def strlen (buffer : List Byte) : Nat :=
  (buffer.takeWhile (fun c => c ≠ NUL)).length

/-- The bytes that `fprintf(fp, "%s", buffer)` writes: those before the first
NUL. -/
def cstring (buffer : List Byte) : List Byte :=
  buffer.takeWhile (fun c => c ≠ NUL)

/-! ## `WriteNewDictionary` -/

/-- The inner loop of `WriteNewDictionary`,
`while(len > 0 && (buffer[len - 1] == '\n' || buffer[len - 1] == '\r')) buffer[--len] = '\0';`
as a function of `len` and the buffer, returning the buffer and `len` at loop
exit. -/
def stripLoop : Nat → List Byte → List Byte × Nat
  | 0, buffer => (buffer, 0)
  | len + 1, buffer =>
    if buffer.getD len NUL = LF ∨ buffer.getD len NUL = CR then
      stripLoop len (buffer.set len NUL)
    else (buffer, len + 1)

/-- The body of the outer loop of `WriteNewDictionary` for the buffer that one
successful `fgets` has filled: what this iteration prints to the output stream,
`none` when the length test fails. -/
def processBuffer (buffer : List Byte) (wordLen : Nat) : Option (List Byte) :=
  let len := u32 (strlen buffer)
  let stripped := stripLoop len buffer
  if stripped.2 = wordLen then some (cstring stripped.1 ++ [LF]) else none

/-- The state of `WriteNewDictionary` between two iterations of its outer loop:
the unread input, the output written so far and the `writtenLines` counter. -/
structure LoopState where
  fpIn : List Byte
  fpOut : List Byte
  writtenLines : Nat
  deriving DecidableEq, Repr

/-- The outer loop of `WriteNewDictionary`, run for at most `fuel` iterations. -/
def writeLoop (wordLen : Nat) : Nat → LoopState → LoopState
  | 0, st => st
  | fuel + 1, st =>
    match fgets BUFFER_SIZE st.fpIn with
    | none => st
    | some (buffer, rest) =>
      match processBuffer buffer wordLen with
      | some line =>
        writeLoop wordLen fuel
          { fpIn := rest, fpOut := st.fpOut ++ line, writtenLines := u32 (st.writtenLines + 1) }
      | none => writeLoop wordLen fuel { st with fpIn := rest }

/-- `WriteNewDictionary(file, wordLen)` on an input stream holding `fpIn` and an
empty output stream: the bytes written to the output and the returned count.
Every iteration consumes at least one byte, so `fpIn.length` iterations reach
the end of the input (`writeLoop_fuel`). -/
def WriteNewDictionary (fpIn : List Byte) (wordLen : Nat) : List Byte × Nat :=
  let st := writeLoop wordLen fpIn.length { fpIn := fpIn, fpOut := [], writtenLines := 0 }
  (st.fpOut, st.writtenLines)

/-! ## Arguments, messages and the environment of a run -/

/-- A C string: its characters before the terminating NUL. -/
abbrev CStr := List Char

/-- `#define ARG_INPATH 1`. -/
def ARG_INPATH : Nat := 1

/-- `#define ARG_OUTPATH 2`. -/
def ARG_OUTPATH : Nat := 2

/-- `#define ARG_WORDLEN 3`. -/
def ARG_WORDLEN : Nat := 3

/-- `#define NUM_REQ_ARGS 4`. -/
def NUM_REQ_ARGS : Int := 4

/-- The pointer `argv[i]`: `none` is `NULL`.  The array `argv` is given as the
list of its entries; a read at or past its end yields `NULL`, as `argv[argc]`
does. -/
def argAt (argv : List (Option CStr)) (i : Nat) : Option CStr :=
  (argv.get? i).join

/-- The lines the program prints, one constructor for each `fprintf` format.
* `usage`: `"Usage: <input_file> <output_file> <word_length>\n"`
* `inputEmpty`: `"Input file path cannot be empty\n"`
* `outputEmpty`: `"Output file path cannot be empty\n"`
* `samePath`: `"Input and output files cannot be the same\n"`
* `invalidWordLen s`: `"Invalid word length '%s'\n"` with `s`
* `allocFail`: `"Couldn't allocate file handle"`
* `cantOpen p`: `"Couldn't open file: %s\n"` with `p`
* `wrote count wordLen`: `"Wrote %zu words of length %u\n"` with both numbers -/
inductive Msg where
  | usage
  | inputEmpty
  | outputEmpty
  | samePath
  | invalidWordLen (s : Option CStr)
  | allocFail
  | cantOpen (p : CStr)
  | wrote (count wordLen : Nat)
  deriving DecidableEq, Repr

/-- What a run does to the outside world, in order: a line printed to `stdout`
or to `stderr`, a call of `fopen` with its mode (`write = true` for `"w"`,
`false` for `"r"`) and whether it succeeded, and the `fclose` of a stream. -/
inductive Event where
  | stdout (m : Msg)
  | stderr (m : Msg)
  | fopen (path : CStr) (write : Bool) (ok : Bool)
  | fclose (path : CStr)
  deriving DecidableEq, Repr

/-- An `fopen` call, successful or not. -/
def Event.isOpen : Event → Bool
  | Event.fopen _ _ _ => true
  | _ => false

/-- The environment of one run: the platform's `ULONG_MAX`, whether `malloc`
succeeds, the file system as seen by `fopen(path, "r")` (`file p = none` when
that call fails, and otherwise the bytes of the file), and whether
`fopen(path, "w")` succeeds.

Two different strings can name one file (`./in` and `in`, links):
`sameFile p q` says that the path `p` names the file that the path `q` names.

The program does not look at the results of `fprintf` and `fclose`:
`stored bytes` is what the output file has received when the stream that wrote
`bytes` is closed, which is `bytes` itself when every write succeeds. -/
structure World where
  ulongMax : Nat
  mallocOk : Bool
  file : CStr → Option (List Byte)
  writable : CStr → Bool
  sameFile : CStr → CStr → Bool
  stored : List Byte → List Byte

/-! ## Argument validation -/

/-- `ValidateWordLenString(str)`. -/
def ValidateWordLenString (str : Option CStr) : Bool :=
  match str with
  | none => false
  | some [] => false
  | some (_ :: _) => true

/-- `ValidateWordLenInt(wordLen)`. -/
def ValidateWordLenInt (wordLen : Nat) : Bool :=
  if wordLen ≤ 0 ∨ wordLen > MAX_WORDLEN then false else true

/-- `ValidateArgs(argc, argv)`: the verdict and the lines printed to `stderr`.
`strlen(argv[i]) == 0` is `argv[i] = some []`, and `strcmp(a, b) == 0` is
equality of the two strings. -/
def ValidateArgs (argc : Int) (argv : List (Option CStr)) : Bool × List Event :=
  if argc ≠ NUM_REQ_ARGS then (false, [])
  else
    match argAt argv ARG_INPATH with
    | none => (false, [Event.stderr Msg.inputEmpty])
    | some [] => (false, [Event.stderr Msg.inputEmpty])
    | some (a :: inPath) =>
      match argAt argv ARG_OUTPATH with
      | none => (false, [Event.stderr Msg.outputEmpty])
      | some [] => (false, [Event.stderr Msg.outputEmpty])
      | some (b :: outPath) =>
        if a :: inPath = b :: outPath then (false, [Event.stderr Msg.samePath])
        else if !ValidateWordLenString (argAt argv ARG_WORDLEN) then
          (false, [Event.stderr (Msg.invalidWordLen (argAt argv ARG_WORDLEN))])
        else (true, [])

/-! ## `strtoul` -/

/-- `isspace` in the "C" locale. -/
def isspace (c : Char) : Bool :=
  c = ' ' || c = '\t' || c = '\n' || c = '\x0b' || c = '\x0c' || c = '\r'

/-- `isdigit`. -/
def isdigit (c : Char) : Bool :=
  '0'.toNat ≤ c.toNat && c.toNat ≤ '9'.toNat

/-- The value of the longest prefix of decimal digits, read after the value
`acc`, and the characters that follow it. -/
def readDigits : List Char → Nat → Nat × List Char
  | [], acc => (acc, [])
  | c :: s, acc =>
    if isdigit c then readDigits s (10 * acc + (c.toNat - '0'.toNat)) else (acc, c :: s)

/-- The optional sign of the subject sequence of `strtoul`: whether a minus
sign was read, and the characters after the sign. -/
def readSign (s : CStr) : Bool × CStr :=
  match s with
  | '-' :: t => (true, t)
  | '+' :: t => (false, t)
  | _ => (false, s)

/-- `strtoul(nptr, &endPtr, 10)` after ISO C 7.22.1.4, for a platform whose
`unsigned long` has the maximum `ulongMax`: white space is skipped, one sign is
accepted, then the longest run of decimal digits is converted.  A value above
`ulongMax` is returned as `ulongMax`; after a minus sign the value is negated
as an `unsigned long`.  Without any digit the result is 0 and `endPtr` is
`nptr`.  Returns the value and the string `endPtr` points to. -/
def strtoul (ulongMax : Nat) (nptr : CStr) : Nat × CStr :=
  let signed := readSign (nptr.dropWhile isspace)
  match signed.2 with
  | [] => (0, nptr)
  | c :: _ =>
    if isdigit c then
      let r := readDigits signed.2 0
      if r.1 > ulongMax then (ulongMax, r.2)
      else if signed.1 then ((ulongMax + 1 - r.1) % (ulongMax + 1), r.2)
      else (r.1, r.2)
    else (0, nptr)

/-! ## Files -/

/-- `HDFILE`: the input stream, given by the bytes it will deliver and the path
it was opened with, and the output stream, given by the path of the file it
writes. -/
structure HDFILE where
  fpIn : List Byte
  inPath : CStr
  fpOut : CStr
  deriving DecidableEq, Repr

/-- The file system after the file named by `p` has received the content
`bytes`: every path that names this file shows the new content. -/
def setFile (sameFile : CStr → CStr → Bool) (file : CStr → Option (List Byte)) (p : CStr)
    (bytes : List Byte) : CStr → Option (List Byte) :=
  fun q => if q = p ∨ sameFile q p = true then some bytes else file q

/-- The result of `OpenFileHandle`: the handle (`none` is `NULL`), the events
and the file system afterwards. -/
structure Opened where
  handle : Option HDFILE
  events : List Event
  file : CStr → Option (List Byte)

/-- `OpenFileHandle(inFilePath, outFilePath)`.  A successful `fopen(path, "w")`
leaves the file named by `path` empty.  The input stream is opened first and
read later: when the output path names the input file, the truncation has
emptied that file before the first `fgets`, and the stream delivers nothing. -/
def OpenFileHandle (w : World) (inFilePath outFilePath : CStr) : Opened :=
  if !w.mallocOk then
    { handle := none, events := [Event.stderr Msg.allocFail], file := w.file }
  else
    match w.file inFilePath with
    | none =>
      { handle := none
        events := [Event.fopen inFilePath false false, Event.stderr (Msg.cantOpen inFilePath)]
        file := w.file }
    | some bytes =>
      if !w.writable outFilePath then
        { handle := none
          events := [Event.fopen inFilePath false true, Event.fopen outFilePath true false,
            Event.stderr (Msg.cantOpen outFilePath), Event.fclose inFilePath]
          file := w.file }
      else
        { handle := some
            { fpIn :=
                if inFilePath = outFilePath ∨ w.sameFile inFilePath outFilePath = true then []
                else bytes
              inPath := inFilePath
              fpOut := outFilePath }
          events := [Event.fopen inFilePath false true, Event.fopen outFilePath true true]
          file := setFile w.sameFile w.file outFilePath [] }

/-- `CloseFileHandle(file)` for a handle with both streams open. -/
def CloseFileHandle (file : HDFILE) : List Event :=
  [Event.fclose file.inPath, Event.fclose file.fpOut]

/-! ## `main` -/

/-- The outcome of a run of `main`: the value returned, the events in order and
the file system at exit. -/
structure Run where
  exit : Int
  events : List Event
  file : CStr → Option (List Byte)

/-- The string at a pointer that `ValidateArgs` has found to be non-`NULL`
(`ValidateArgs_true`). -/
def deref (p : Option CStr) : CStr := p.getD []

/-- `main(argc, argv)` in the environment `w`.  The bytes that reach the output
file follow what the file holds after `OpenFileHandle`. -/
def main (w : World) (argc : Int) (argv : List (Option CStr)) : Run :=
  let v := ValidateArgs argc argv
  if !v.1 then
    { exit := 1, events := v.2 ++ [Event.stdout Msg.usage], file := w.file }
  else
    let parsed := strtoul w.ulongMax (deref (argAt argv ARG_WORDLEN))
    let wordLen := u32 parsed.1
    if parsed.2 ≠ [] ∨ !ValidateWordLenInt wordLen then
      { exit := 1
        events := v.2 ++ [Event.stderr (Msg.invalidWordLen (argAt argv ARG_WORDLEN))]
        file := w.file }
    else
      let o := OpenFileHandle w (deref (argAt argv ARG_INPATH)) (deref (argAt argv ARG_OUTPATH))
      match o.handle with
      | none => { exit := 1, events := v.2 ++ o.events, file := o.file }
      | some fileHandle =>
        let r := WriteNewDictionary fileHandle.fpIn wordLen
        { exit := 0
          events := v.2 ++ o.events ++ [Event.stdout (Msg.wrote r.2 wordLen)]
            ++ CloseFileHandle fileHandle
          file := setFile w.sameFile o.file fileHandle.fpOut
            (match o.file fileHandle.fpOut with
              | some held => held ++ w.stored r.1
              | none => w.stored r.1) }

/-! ## The words of the specification -/

/-- A line terminator byte, `'\n'` or `'\r'`. -/
def isTerminator (c : Byte) : Bool := c = LF || c = CR

/-- A byte sequence with its trailing `'\n'` and `'\r'` bytes removed. -/
def stripTerminators (l : List Byte) : List Byte :=
  l.rdropWhile isTerminator

/-- The lines of a byte sequence: a line is the bytes up to and including a
`'\n'`, or up to the end of the sequence. -/
def splitLines : List Byte → List (List Byte)
  | [] => []
  | c :: s =>
    if c = LF then [c] :: splitLines s
    else
      match splitLines s with
      | [] => [[c]]
      | l :: ls => (c :: l) :: ls

/-- The number of lines of `input` whose length without trailing terminators is
`wordLen`. -/
def matchingLines (input : List Byte) (wordLen : Nat) : Nat :=
  ((splitLines input).filter (fun l => (stripTerminators l).length = wordLen)).length

/-- A string of the shape `strtoul` converts in full: optional white space, an
optional sign, then one or more decimal digits and nothing else. -/
def numericShape (s : CStr) : Bool :=
  let t := s.dropWhile isspace
  let u := match t with
    | '-' :: r => r
    | '+' :: r => r
    | _ => t
  !u.isEmpty && u.all isdigit

/-- A string that is purely a sequence of decimal digits. -/
def allDigits (s : CStr) : Bool := s.all isdigit

/-- The numeric value of a string of decimal digits. -/
def decimalValue (s : CStr) : Nat :=
  s.foldl (fun acc c => 10 * acc + (c.toNat - '0'.toNat)) 0

/-! ## Auxiliary definitions for the proofs -/

/-- The lines printed by the first `fuel` iterations of the outer loop of
`WriteNewDictionary` on the stream `fp`, one entry for each `fprintf`. -/
def printedLines (wordLen : Nat) : Nat → List Byte → List (List Byte)
  | 0, _ => []
  | fuel + 1, fp =>
    match fgets BUFFER_SIZE fp with
    | none => []
    | some (buffer, rest) =>
      match processBuffer buffer wordLen with
      | some line => line :: printedLines wordLen fuel rest
      | none => printedLines wordLen fuel rest

/-- The input that the first `fuel` iterations of the outer loop leave unread. -/
def unreadAfter : Nat → List Byte → List Byte
  | 0, fp => fp
  | fuel + 1, fp =>
    match fgets BUFFER_SIZE fp with
    | none => fp
    | some (_, rest) => unreadAfter fuel rest

/-- The word a read that stored `chunk` is measured by: the bytes before the
first NUL, without trailing terminators. -/
def chunkWord (chunk : List Byte) : List Byte :=
  stripTerminators (cstring chunk)

/-- What one iteration prints for a read that stored `chunk`, as a list with at
most one entry. -/
def chunkLines (wordLen : Nat) (chunk : List Byte) : List (List Byte) :=
  if (chunkWord chunk).length = wordLen then [chunkWord chunk ++ [LF]] else []

/-- All lines printed by `WriteNewDictionary` on the stream `fp`. -/
def printed (wordLen : Nat) (fp : List Byte) : List (List Byte) :=
  printedLines wordLen fp.length fp

/-- The `uint32_t wordLen` that `main` computes from `argv[ARG_WORDLEN]`, and
the string `endPtr` points to. -/
def parseWordLen (w : World) (argv : List (Option CStr)) : Nat × CStr :=
  (u32 (strtoul w.ulongMax (deref (argAt argv ARG_WORDLEN))).1,
    (strtoul w.ulongMax (deref (argAt argv ARG_WORDLEN))).2)

/-- An environment to run `main` in: `unsigned long` of 64 bits, `malloc`
succeeds, the only file is `in` and holds `"cat\ndog\nelephant\n"`, every
path can be opened for writing, different paths name different files and every
write succeeds. -/
def sampleWorld : World :=
  { ulongMax := 2 ^ 64 - 1
    mallocOk := true
    file := fun p =>
      if p = ['i', 'n'] then
        some [99, 97, 116, 10, 100, 111, 103, 10, 101, 108, 101, 112, 104, 97, 110, 116, 10]
      else none
    writable := fun _ => true
    sameFile := fun _ _ => false
    stored := fun bytes => bytes }

/-- The argument vector `redict in out <len>`. -/
def sampleArgs (len : CStr) : List (Option CStr) :=
  [some ['r', 'e', 'd', 'i', 'c', 't'], some ['i', 'n'], some ['o', 'u', 't'], some len]

/-- The length the loop body of `WriteNewDictionary` compares with `wordLen`
when `fgets` has stored `line`: `strlen` of the buffer, then the stripping
loop. -/
def measuredLength (line : List Byte) : Nat :=
  (stripLoop (u32 (strlen (line ++ [NUL]))) (line ++ [NUL])).2

/-- A printed line: `wordLen` bytes, none of them a line feed or a NUL, the last
one no terminator, then one line feed. -/
def IsWordLine (wordLen : Nat) (l : List Byte) : Prop :=
  ∃ w : List Byte, l = w ++ [LF] ∧ w.length = wordLen ∧ LF ∉ w ∧ NUL ∉ w ∧
    (∀ h : w ≠ [], ¬ isTerminator (w.getLast h) = true) ∧ w.length ≤ 256

/-- The file in which each word is terminated by LF (`"\n"`). -/
def lfFile (words : List (List Byte)) : List Byte :=
  (words.map (fun w => w ++ [LF])).flatten

/-- The file in which each word is terminated by CRLF (`"\r\n"`). -/
def crlfFile (words : List (List Byte)) : List Byte :=
  (words.map (fun w => w ++ [CR, LF])).flatten

/-- The bytes taken from the stream `fp` by each of the first `fuel` iterations
of the outer loop of `WriteNewDictionary`, one entry for each successful
`fgets`: the buffer without the NUL that `fgets` appends. -/
def readChunks : Nat → List Byte → List (List Byte)
  | 0, _ => []
  | fuel + 1, fp =>
    match fgets BUFFER_SIZE fp with
    | none => []
    | some (buffer, rest) => buffer.dropLast :: readChunks fuel rest

/-- The reads of `WriteNewDictionary` on the stream `fp`. -/
def reads (fp : List Byte) : List (List Byte) :=
  readChunks fp.length fp

/-- The environment `sampleWorld` with an output file `out` left by an earlier
run, holding `"x\n"`. -/
def sampleWorldAfter : World :=
  { sampleWorld with
    file := setFile sampleWorld.sameFile sampleWorld.file ['o', 'u', 't'] [120, 10] }

/-- The environment `sampleWorld` in which the path `./in` names the file
`in`. -/
def aliasWorld : World :=
  { sampleWorld with
    file := fun p =>
      if p = ['i', 'n'] ∨ p = ['.', '/', 'i', 'n'] then
        some [99, 97, 116, 10, 100, 111, 103, 10, 101, 108, 101, 112, 104, 97, 110, 116, 10]
      else none
    sameFile := fun p q =>
      decide ((p = ['.', '/', 'i', 'n'] ∧ q = ['i', 'n']) ∨
        (p = ['i', 'n'] ∧ q = ['.', '/', 'i', 'n'])) }

/-! ## `fgets` -/

theorem fgetsRead_append (k : Nat) (s : List Byte) :
    (fgetsRead k s).1 ++ (fgetsRead k s).2 = s := by
  induction k generalizing s with
  | zero => simp [fgetsRead]
  | succ k ih =>
    cases s with
    | nil => simp [fgetsRead]
    | cons c s =>
      by_cases h : c = LF
      · simp [fgetsRead, h]
      · simp [fgetsRead, h, ih]

theorem fgetsRead_length_le (k : Nat) (s : List Byte) :
    (fgetsRead k s).1.length ≤ k := by
  induction k generalizing s with
  | zero => simp [fgetsRead]
  | succ k ih =>
    cases s with
    | nil => simp [fgetsRead]
    | cons c s =>
      by_cases h : c = LF
      · simp [fgetsRead, h]
      · simpa [fgetsRead, h] using ih s

theorem fgetsRead_rest_length (k : Nat) (c : Byte) (s : List Byte) :
    (fgetsRead (k + 1) (c :: s)).2.length ≤ s.length := by
  have h := congrArg List.length (fgetsRead_append (k + 1) (c :: s))
  have h1 : 1 ≤ (fgetsRead (k + 1) (c :: s)).1.length := by
    by_cases hc : c = LF <;> simp [fgetsRead, hc]
  simp only [List.length_append, List.length_cons] at h
  omega

/-- A read stores no line feed, or stores bytes without line feed followed by
one line feed. -/
theorem fgetsRead_shape (k : Nat) (s : List Byte) :
    LF ∉ (fgetsRead k s).1 ∨
      ∃ pre, (fgetsRead k s).1 = pre ++ [LF] ∧ LF ∉ pre := by
  induction k generalizing s with
  | zero => left; simp [fgetsRead]
  | succ k ih =>
    cases s with
    | nil => left; simp [fgetsRead]
    | cons c s =>
      by_cases h : c = LF
      · right; exact ⟨[], by simp [fgetsRead, h]⟩
      · rcases ih s with h1 | ⟨pre, h1, h2⟩
        · left
          simp only [fgetsRead, h, if_false, List.mem_cons, not_or]
          exact ⟨fun e => h e.symm, h1⟩
        · right
          refine ⟨c :: pre, ?_, ?_⟩
          · simp [fgetsRead, h, h1]
          · simp only [List.mem_cons, not_or]
            exact ⟨fun e => h e.symm, h2⟩

/-! ## `strlen`, the stripping loop and the loop body -/

theorem takeWhile_nul_append (p q : List Byte) (hp : ∀ x ∈ p, x ≠ NUL) :
    (p ++ NUL :: q).takeWhile (fun c => c ≠ NUL) = p := by
  induction p with
  | nil => simp [List.takeWhile]
  | cons a p ih =>
    have ha : a ≠ NUL := hp a (List.mem_cons_self _ _)
    have := ih (fun x hx => hp x (List.mem_cons_of_mem _ hx))
    show List.takeWhile _ (a :: (p ++ NUL :: q)) = a :: p
    rw [List.takeWhile_cons_of_pos (by simpa using ha), this]

theorem cstring_nul_free (l : List Byte) : ∀ x ∈ cstring l, x ≠ NUL := by
  intro x hx
  have := List.mem_takeWhile_imp hx
  simpa using this

/-- A buffer that ends in NUL is its C string, a NUL and further bytes. -/
theorem buffer_split (chunk : List Byte) :
    ∃ q, chunk ++ [NUL] = cstring chunk ++ NUL :: q := by
  induction chunk with
  | nil => exact ⟨[], by simp [cstring]⟩
  | cons a l ih =>
    obtain ⟨q, hq⟩ := ih
    by_cases ha : a = NUL
    · exact ⟨l ++ [NUL], by simp [cstring, List.takeWhile, ha]⟩
    · refine ⟨q, ?_⟩
      have : cstring (a :: l) = a :: cstring l := by simp [cstring, List.takeWhile, ha]
      rw [this]
      simp only [List.cons_append]
      rw [hq]

theorem stripTerminators_pre (l : List Byte) : (stripTerminators l).IsPrefix l := by
  unfold stripTerminators
  exact List.rdropWhile_prefix _ _

theorem cstring_pre (l : List Byte) : (cstring l).IsPrefix l := by
  unfold cstring
  exact List.takeWhile_prefix _

theorem stripTerminators_nul_free (p : List Byte) (hp : ∀ x ∈ p, x ≠ NUL) :
    ∀ x ∈ stripTerminators p, x ≠ NUL := by
  intro x hx
  apply hp
  exact (stripTerminators_pre p).subset hx

theorem stripLoop_spec (p : List Byte) :
    ∀ q, ∃ q', stripLoop p.length (p ++ NUL :: q) =
      (stripTerminators p ++ NUL :: q', (stripTerminators p).length) := by
  induction p using List.reverseRecOn with
  | nil => intro q; exact ⟨q, by simp [stripLoop, stripTerminators]⟩
  | append_singleton p c ih =>
    intro q
    have hget : (p ++ [c] ++ NUL :: q).getD p.length NUL = c := by
      rw [List.getD_eq_getElem?_getD, List.append_assoc,
        List.getElem?_append_right (Nat.le_refl _)]
      simp
    by_cases hc : c = LF ∨ c = CR
    · obtain ⟨q', hq'⟩ := ih (NUL :: q)
      refine ⟨q', ?_⟩
      have hset : (p ++ [c] ++ NUL :: q).set p.length NUL = p ++ NUL :: NUL :: q := by
        simp [List.set_append]
      have hs : stripTerminators (p ++ [c]) = stripTerminators p := by
        unfold stripTerminators
        apply List.rdropWhile_concat_pos
        rcases hc with h | h <;> simp [isTerminator, h]
      simp only [List.length_append, List.length_singleton, stripLoop, hget, hc, if_true, hset,
        hq', hs]
    · refine ⟨q, ?_⟩
      have hs : stripTerminators (p ++ [c]) = p ++ [c] := by
        unfold stripTerminators
        apply List.rdropWhile_concat_neg
        simp only [not_or] at hc
        simp [isTerminator, hc.1, hc.2]
      simp only [List.length_append, List.length_singleton, stripLoop, hget, hc, if_false, hs]

/-- The loop body prints the word of the chunk and a line feed when the word
has the wanted length, and nothing otherwise. -/
theorem processBuffer_eq (chunk : List Byte) (wordLen : Nat) (h : chunk.length < 2 ^ 32) :
    processBuffer (chunk ++ [NUL]) wordLen =
      if (chunkWord chunk).length = wordLen then some (chunkWord chunk ++ [LF]) else none := by
  obtain ⟨q, hq⟩ := buffer_split chunk
  have hlen : strlen (chunk ++ [NUL]) = (cstring chunk).length := by
    rw [hq]
    unfold strlen
    rw [takeWhile_nul_append _ _ (cstring_nul_free chunk)]
  have hle : (cstring chunk).length ≤ chunk.length := by
    unfold cstring
    exact (List.takeWhile_sublist _).length_le
  have hu : u32 (cstring chunk).length = (cstring chunk).length := by
    unfold u32
    exact Nat.mod_eq_of_lt (by omega)
  obtain ⟨q', hq'⟩ := stripLoop_spec (cstring chunk) q
  have hc : cstring (stripTerminators (cstring chunk) ++ NUL :: q') =
      stripTerminators (cstring chunk) := by
    unfold cstring
    exact takeWhile_nul_append _ _
      (stripTerminators_nul_free _ (cstring_nul_free chunk))
  unfold processBuffer
  simp only [hlen, hu]
  rw [hq, hq']
  simp only [hc, chunkWord]

/-! ## The outer loop -/

theorem fgets_nil (n : Nat) : fgets n [] = none := rfl

theorem fgets_cons (c : Byte) (s : List Byte) :
    fgets BUFFER_SIZE (c :: s) =
      some ((fgetsRead 256 (c :: s)).1 ++ [NUL], (fgetsRead 256 (c :: s)).2) := rfl

theorem fgetsRead_lt (k : Nat) (s : List Byte) (hk : k ≤ 256) :
    (fgetsRead k s).1.length < 2 ^ 32 := by
  have := fgetsRead_length_le k s
  have h2 : (256 : Nat) < 2 ^ 32 := by norm_num
  omega

/-- One iteration, in terms of the word of the chunk read. -/
theorem processBuffer_chunk (c : Byte) (s : List Byte) (wordLen : Nat) :
    processBuffer ((fgetsRead 256 (c :: s)).1 ++ [NUL]) wordLen =
      if (chunkWord (fgetsRead 256 (c :: s)).1).length = wordLen then
        some (chunkWord (fgetsRead 256 (c :: s)).1 ++ [LF]) else none :=
  processBuffer_eq _ _ (fgetsRead_lt 256 _ (Nat.le_refl _))

theorem printedLines_nil (wordLen fuel : Nat) : printedLines wordLen fuel [] = [] := by
  cases fuel <;> simp [printedLines, fgets_nil]

theorem printedLines_cons (wordLen fuel : Nat) (c : Byte) (s : List Byte) :
    printedLines wordLen (fuel + 1) (c :: s) =
      chunkLines wordLen (fgetsRead 256 (c :: s)).1 ++
        printedLines wordLen fuel (fgetsRead 256 (c :: s)).2 := by
  simp only [printedLines, fgets_cons, processBuffer_chunk, chunkLines]
  split_ifs <;> simp

/-- More iterations than the stream has bytes print nothing more. -/
theorem printedLines_fuel (wordLen : Nat) :
    ∀ (fuel : Nat) (fp : List Byte), fp.length ≤ fuel →
      printedLines wordLen fuel fp = printedLines wordLen fp.length fp := by
  intro fuel
  induction fuel using Nat.strong_induction_on with
  | _ fuel ih =>
    intro fp hfp
    cases fp with
    | nil => simp [printedLines_nil]
    | cons c s =>
      cases fuel with
      | zero => simp at hfp
      | succ fuel =>
        have hr : (fgetsRead 256 (c :: s)).2.length ≤ s.length := fgetsRead_rest_length 255 c s
        simp only [List.length_cons] at hfp
        rw [printedLines_cons, List.length_cons, printedLines_cons,
          ih fuel (Nat.lt_succ_self _) _ (by omega)]
        by_cases hs : s.length = fuel
        · rw [hs]
          rw [ih fuel (Nat.lt_succ_self _) _ (by omega)]
        · rw [ih s.length (by omega) _ hr]

theorem printed_nil (wordLen : Nat) : printed wordLen [] = [] := rfl

theorem printed_cons (wordLen : Nat) (c : Byte) (s : List Byte) :
    printed wordLen (c :: s) =
      chunkLines wordLen (fgetsRead 256 (c :: s)).1 ++
        printed wordLen (fgetsRead 256 (c :: s)).2 := by
  unfold printed
  rw [List.length_cons, printedLines_cons,
    printedLines_fuel wordLen s.length _
      (show (fgetsRead 256 (c :: s)).2.length ≤ s.length from fgetsRead_rest_length 255 c s)]

/-- After as many iterations as the stream has bytes, nothing is left unread. -/
theorem unreadAfter_fuel :
    ∀ (fuel : Nat) (fp : List Byte), fp.length ≤ fuel → unreadAfter fuel fp = [] := by
  intro fuel
  induction fuel with
  | zero =>
    intro fp h
    cases fp with
    | nil => rfl
    | cons c s => simp at h
  | succ fuel ih =>
    intro fp h
    cases fp with
    | nil => simp [unreadAfter, fgets_nil]
    | cons c s =>
      have hr : (fgetsRead 256 (c :: s)).2.length ≤ s.length := fgetsRead_rest_length 255 c s
      simp only [List.length_cons] at h
      simp only [unreadAfter, fgets_cons]
      exact ih _ (by omega)

/-- The state of the loop after `fuel` iterations. -/
theorem writeLoop_eq (wordLen : Nat) :
    ∀ (fuel : Nat) (st : LoopState),
      writeLoop wordLen fuel st =
        { fpIn := unreadAfter fuel st.fpIn
          fpOut := st.fpOut ++ (printedLines wordLen fuel st.fpIn).flatten
          writtenLines :=
            if printedLines wordLen fuel st.fpIn = [] then st.writtenLines
            else u32 (st.writtenLines + (printedLines wordLen fuel st.fpIn).length) } := by
  intro fuel
  induction fuel with
  | zero => intro st; simp [writeLoop, unreadAfter, printedLines]
  | succ fuel ih =>
    intro st
    obtain ⟨fpIn, fpOut, n⟩ := st
    cases fpIn with
    | nil => simp [writeLoop, unreadAfter, printedLines, fgets_nil]
    | cons c s =>
      simp only [writeLoop, unreadAfter, printedLines, fgets_cons]
      cases hp : processBuffer ((fgetsRead 256 (c :: s)).1 ++ [NUL]) wordLen with
      | none => simp only [ih]
      | some line =>
        simp only [ih, List.flatten_cons, List.append_assoc, List.length_cons]
        congr 1
        by_cases hnil : printedLines wordLen fuel (fgetsRead 256 (c :: s)).2 = []
        · simp [hnil]
        · simp only [hnil, if_false, List.cons_ne_nil]
          unfold u32
          omega

/-- `WriteNewDictionary` writes the printed lines one after the other and
returns their number as a `uint32_t`. -/
theorem WriteNewDictionary_eq (fp : List Byte) (wordLen : Nat) :
    WriteNewDictionary fp wordLen =
      ((printed wordLen fp).flatten, u32 (printed wordLen fp).length) := by
  unfold WriteNewDictionary
  simp only [writeLoop_eq, List.nil_append, Nat.zero_add]
  congr 1
  unfold printed
  by_cases h : printedLines wordLen fp.length fp = []
  · simp [h, u32]
  · simp [h]

/-- The loop has reached the end of the input when `WriteNewDictionary`
returns, and further iterations would change nothing. -/
theorem writeLoop_fuel (wordLen : Nat) (fp : List Byte) (fuel : Nat) (h : fp.length ≤ fuel) :
    writeLoop wordLen fuel { fpIn := fp, fpOut := [], writtenLines := 0 } =
      { fpIn := [], fpOut := (WriteNewDictionary fp wordLen).1,
        writtenLines := (WriteNewDictionary fp wordLen).2 } := by
  rw [WriteNewDictionary_eq, writeLoop_eq]
  simp only [unreadAfter_fuel fuel fp h, printedLines_fuel wordLen fuel fp h, List.nil_append,
    Nat.zero_add]
  congr 1
  unfold printed
  by_cases h : printedLines wordLen fp.length fp = []
  · simp [h, u32]
  · simp [h]

/-! ## The word of a chunk -/

theorem chunkWord_pre (chunk : List Byte) : (chunkWord chunk).IsPrefix chunk := by
  unfold chunkWord
  exact List.IsPrefix.trans (stripTerminators_pre _) (cstring_pre _)

theorem chunkWord_last (chunk : List Byte) (h : chunkWord chunk ≠ []) :
    ¬ isTerminator ((chunkWord chunk).getLast h) = true := by
  unfold chunkWord stripTerminators at h ⊢
  exact List.rdropWhile_last_not _ _ h

theorem chunkWord_nul_free (chunk : List Byte) : NUL ∉ chunkWord chunk := by
  intro h
  exact stripTerminators_nul_free _ (cstring_nul_free chunk) NUL h rfl

/-- The word of a chunk that `fgets` stored holds no line feed. -/
theorem chunkWord_no_LF (k : Nat) (s : List Byte) : LF ∉ chunkWord (fgetsRead k s).1 := by
  intro hmem
  have hpre := chunkWord_pre (fgetsRead k s).1
  rcases fgetsRead_shape k s with h | ⟨pre, h1, h2⟩
  · exact h (hpre.subset hmem)
  · rw [h1] at hpre hmem
    rcases List.prefix_concat_iff.mp hpre with heq | hp
    · have hne : chunkWord (pre ++ [LF]) ≠ [] := by rw [heq]; simp
      have hl := chunkWord_last (pre ++ [LF]) hne
      apply hl
      have : (chunkWord (pre ++ [LF])).getLast hne = LF := by
        simp only [heq]
        exact List.getLast_concat pre
      rw [this]
      rfl
    · exact h2 (hp.subset hmem)

theorem chunkLines_wordLine (wordLen k : Nat) (hk : k ≤ 256) (s : List Byte) :
    ∀ l ∈ chunkLines wordLen (fgetsRead k s).1, IsWordLine wordLen l := by
  intro l hl
  unfold chunkLines at hl
  split_ifs at hl with hlen
  · simp only [List.mem_singleton] at hl
    refine ⟨chunkWord (fgetsRead k s).1, hl, hlen, chunkWord_no_LF k s,
      chunkWord_nul_free _, chunkWord_last _, ?_⟩
    exact ((chunkWord_pre _).length_le).trans ((fgetsRead_length_le k s).trans hk)
  · simp at hl

/-- Every printed line is a word line. -/
theorem printed_wordLine (wordLen : Nat) (fp : List Byte) :
    ∀ l ∈ printed wordLen fp, IsWordLine wordLen l := by
  obtain ⟨n, h⟩ : ∃ n, fp.length = n := ⟨_, rfl⟩
  induction n using Nat.strong_induction_on generalizing fp with
  | _ n ih =>
    cases fp with
    | nil => simp [printed_nil]
    | cons c s =>
      intro l hl
      rw [printed_cons, List.mem_append] at hl
      rcases hl with hl | hl
      · exact chunkLines_wordLine wordLen 256 (Nat.le_refl _) _ l hl
      · have hr : (fgetsRead 256 (c :: s)).2.length ≤ s.length := fgetsRead_rest_length 255 c s
        simp only [List.length_cons] at h
        exact ih _ (by omega) _ rfl l hl

/-! ## Lines -/

theorem splitLines_line (w rest : List Byte) (hw : LF ∉ w) :
    splitLines (w ++ LF :: rest) = (w ++ [LF]) :: splitLines rest := by
  induction w with
  | nil => simp [splitLines]
  | cons a w ih =>
    simp only [List.mem_cons, not_or] at hw
    have ha : a ≠ LF := fun e => hw.1 e.symm
    show splitLines (a :: (w ++ LF :: rest)) = _
    rw [splitLines]
    simp only [ha, if_false]
    rw [ih hw.2]
    rfl

theorem splitLines_flatten (wordLen : Nat) (L : List (List Byte))
    (hL : ∀ l ∈ L, IsWordLine wordLen l) : splitLines L.flatten = L := by
  induction L with
  | nil => simp [splitLines]
  | cons l L ih =>
    obtain ⟨w, rfl, -, hw, -⟩ := hL l (List.mem_cons_self _ _)
    have := ih (fun l hl => hL l (List.mem_cons_of_mem _ hl))
    simp only [List.flatten_cons, List.append_assoc, List.singleton_append]
    rw [splitLines_line w _ hw, this]

/-- The lines of the output are the printed lines. -/
theorem splitLines_output (input : List Byte) (wordLen : Nat) :
    splitLines (WriteNewDictionary input wordLen).1 = printed wordLen input := by
  rw [WriteNewDictionary_eq]
  exact splitLines_flatten wordLen _ (printed_wordLine wordLen input)

theorem measuredLength_eq (line : List Byte) (h : line.length < 2 ^ 32) :
    measuredLength line = (chunkWord line).length := by
  have := processBuffer_eq line (chunkWord line).length h
  unfold processBuffer at this
  simp only [if_true] at this
  unfold measuredLength
  by_contra hne
  simp [hne] at this

theorem measuredLength_wordLine (wordLen : Nat) (l : List Byte) (h : IsWordLine wordLen l) :
    measuredLength l = wordLen := by
  obtain ⟨w, rfl, hlen, hLF, hNUL, hlast, hle⟩ := h
  have h2 : (256 : Nat) < 2 ^ 32 := by norm_num
  rw [measuredLength_eq _ (by simp only [List.length_append, List.length_singleton]; omega)]
  have hc : cstring (w ++ [LF]) = w ++ [LF] := by
    unfold cstring
    rw [List.takeWhile_eq_self_iff]
    intro x hx
    simp only [List.mem_append, List.mem_singleton] at hx
    rcases hx with hx | hx
    · have : x ≠ NUL := fun e => hNUL (e ▸ hx)
      simpa using this
    · subst hx
      decide
  have hs : stripTerminators (w ++ [LF]) = w := by
    unfold stripTerminators
    rw [List.rdropWhile_concat_pos _ _ _ (by rfl)]
    rw [List.rdropWhile_eq_self_iff]
    exact hlast
  unfold chunkWord
  rw [hc, hs, hlen]

/-! ## Stripping terminators -/

theorem stripTerminators_append (w t : List Byte) (ht : ∀ x ∈ t, isTerminator x = true) :
    stripTerminators (w ++ t) = stripTerminators w := by
  induction t using List.reverseRecOn with
  | nil => simp
  | append_singleton t c ih =>
    have hc : isTerminator c = true := ht c (by simp)
    have := ih (fun x hx => ht x (by simp [hx]))
    unfold stripTerminators at this ⊢
    rw [← List.append_assoc, List.rdropWhile_concat_pos _ _ _ hc, this]

theorem stripTerminators_split (l : List Byte) :
    ∃ t, l = stripTerminators l ++ t ∧ ∀ x ∈ t, isTerminator x = true := by
  induction l using List.reverseRecOn with
  | nil => exact ⟨[], by simp [stripTerminators], by simp⟩
  | append_singleton l c ih =>
    obtain ⟨t, ht, hall⟩ := ih
    by_cases hc : isTerminator c = true
    · refine ⟨t ++ [c], ?_, ?_⟩
      · unfold stripTerminators at ht ⊢
        rw [List.rdropWhile_concat_pos _ _ _ hc, ← List.append_assoc, ← ht]
      · intro x hx
        simp only [List.mem_append, List.mem_singleton] at hx
        rcases hx with hx | hx
        · exact hall x hx
        · rw [hx]; exact hc
    · refine ⟨[], ?_, by simp⟩
      unfold stripTerminators
      rw [List.rdropWhile_concat_neg _ _ _ hc, List.append_nil]

theorem stripTerminators_last (l : List Byte) (h : stripTerminators l ≠ []) :
    ¬ isTerminator ((stripTerminators l).getLast h) = true := by
  unfold stripTerminators at h ⊢
  exact List.rdropWhile_last_not _ _ h

theorem stripTerminators_self (w : List Byte)
    (h : ∀ hw : w ≠ [], ¬ isTerminator (w.getLast hw) = true) : stripTerminators w = w := by
  unfold stripTerminators
  rw [List.rdropWhile_eq_self_iff]
  exact h

theorem cstring_self (l : List Byte) (h : NUL ∉ l) : cstring l = l := by
  unfold cstring
  rw [List.takeWhile_eq_self_iff]
  intro x hx
  have : x ≠ NUL := fun e => h (e ▸ hx)
  simpa using this

theorem terminator_ne_nul (x : Byte) (h : isTerminator x = true) : x ≠ NUL := by
  intro e
  subst e
  revert h
  decide

/-! ## Reads and terminator runs -/

/-- A stream of terminators only prints nothing when `wordLen` is positive. -/
theorem printed_terminators (wordLen : Nat) (hw : 1 ≤ wordLen) (t : List Byte)
    (ht : ∀ x ∈ t, isTerminator x = true) : printed wordLen t = [] := by
  obtain ⟨n, h⟩ : ∃ n, t.length = n := ⟨_, rfl⟩
  induction n using Nat.strong_induction_on generalizing t with
  | _ n ih =>
    cases t with
    | nil => exact printed_nil wordLen
    | cons c s =>
      have happ := fgetsRead_append 256 (c :: s)
      have hchunk : ∀ x ∈ (fgetsRead 256 (c :: s)).1, isTerminator x = true := by
        intro x hx
        apply ht
        rw [← happ]
        exact List.mem_append_left _ hx
      have hrest : ∀ x ∈ (fgetsRead 256 (c :: s)).2, isTerminator x = true := by
        intro x hx
        apply ht
        rw [← happ]
        exact List.mem_append_right _ hx
      have hword : chunkWord (fgetsRead 256 (c :: s)).1 = [] := by
        unfold chunkWord stripTerminators
        rw [List.rdropWhile_eq_nil_iff]
        intro x hx
        exact hchunk x ((cstring_pre _).subset hx)
      have hr : (fgetsRead 256 (c :: s)).2.length ≤ s.length := fgetsRead_rest_length 255 c s
      simp only [List.length_cons] at h
      rw [printed_cons, ih _ (by omega) _ hrest rfl, List.append_nil]
      unfold chunkLines
      rw [hword]
      have : ¬ ([] : List Byte).length = wordLen := by
        simp only [List.length_nil]
        omega
      simp only [this, if_false]

/-- A read of a stream that starts with at most `k` bytes without line feed
takes all of them. -/
theorem fgetsRead_word (w t : List Byte) (hLF : LF ∉ w) :
    ∀ k, w.length ≤ k →
      fgetsRead k (w ++ t) =
        (w ++ (fgetsRead (k - w.length) t).1, (fgetsRead (k - w.length) t).2) := by
  induction w with
  | nil => intro k _; simp
  | cons a w ih =>
    intro k hk
    simp only [List.mem_cons, not_or] at hLF
    have ha : a ≠ LF := fun e => hLF.1 e.symm
    cases k with
    | zero => simp at hk
    | succ k =>
      simp only [List.length_cons] at hk
      have := ih hLF.2 k (by omega)
      show fgetsRead (k + 1) (a :: (w ++ t)) = _
      rw [fgetsRead]
      simp only [ha, if_false, this, List.length_cons, Nat.add_sub_add_right, List.cons_append]

/-- A word of at most 256 bytes followed by terminators only is measured as the
word, and nothing else of it is printed. -/
theorem printed_word (wordLen : Nat) (hw : 1 ≤ wordLen) (w t : List Byte)
    (hLF : LF ∉ w) (hNUL : NUL ∉ w) (hlen : w.length ≤ 256)
    (hlast : ∀ h : w ≠ [], ¬ isTerminator (w.getLast h) = true)
    (ht : ∀ x ∈ t, isTerminator x = true) :
    printed wordLen (w ++ t) = if w.length = wordLen then [w ++ [LF]] else [] := by
  cases hw0 : w with
  | nil =>
    have : ¬ (0 = wordLen) := by omega
    simp only [List.nil_append, List.length_nil, this, if_false]
    exact printed_terminators wordLen hw t ht
  | cons c s =>
    rw [← hw0]
    have hcons : w ++ t = c :: (s ++ t) := by rw [hw0]; rfl
    have hread := fgetsRead_word w t hLF 256 hlen
    have happ := fgetsRead_append (256 - w.length) t
    have ht1 : ∀ x ∈ (fgetsRead (256 - w.length) t).1, isTerminator x = true := by
      intro x hx
      apply ht
      rw [← happ]
      exact List.mem_append_left _ hx
    have ht2 : ∀ x ∈ (fgetsRead (256 - w.length) t).2, isTerminator x = true := by
      intro x hx
      apply ht
      rw [← happ]
      exact List.mem_append_right _ hx
    have hnul : NUL ∉ w ++ (fgetsRead (256 - w.length) t).1 := by
      intro hx
      rcases List.mem_append.mp hx with hx | hx
      · exact hNUL hx
      · exact terminator_ne_nul _ (ht1 _ hx) rfl
    have hword : chunkWord (w ++ (fgetsRead (256 - w.length) t).1) = w := by
      unfold chunkWord
      rw [cstring_self _ hnul, stripTerminators_append _ _ ht1, stripTerminators_self w hlast]
    have hp : printed wordLen (w ++ t) =
        chunkLines wordLen (fgetsRead 256 (w ++ t)).1 ++
          printed wordLen (fgetsRead 256 (w ++ t)).2 := by
      rw [hcons]
      exact printed_cons wordLen c (s ++ t)
    rw [hp, hread]
    simp only
    rw [printed_terminators wordLen hw _ ht2, List.append_nil]
    unfold chunkLines
    rw [hword]

/-! ## Reads never cross a line feed -/

theorem printed_of_ne_nil (wordLen : Nat) (l : List Byte) (h : l ≠ []) :
    printed wordLen l =
      chunkLines wordLen (fgetsRead 256 l).1 ++ printed wordLen (fgetsRead 256 l).2 := by
  cases l with
  | nil => exact absurd rfl h
  | cons c s => exact printed_cons wordLen c s

theorem fgetsRead_rest_lt (l : List Byte) (h : l ≠ []) :
    (fgetsRead 256 l).2.length < l.length := by
  cases l with
  | nil => exact absurd rfl h
  | cons c s =>
    have hr : (fgetsRead 256 (c :: s)).2.length ≤ s.length := fgetsRead_rest_length 255 c s
    simp only [List.length_cons]
    omega

theorem fgetsRead_append_line (b : List Byte) :
    ∀ (k : Nat) (a : List Byte),
      fgetsRead k (a ++ LF :: b) =
        ((fgetsRead k (a ++ [LF])).1, (fgetsRead k (a ++ [LF])).2 ++ b) := by
  intro k
  induction k with
  | zero => intro a; simp [fgetsRead]
  | succ k ih =>
    intro a
    cases a with
    | nil => simp [fgetsRead]
    | cons c a =>
      show fgetsRead (k + 1) (c :: (a ++ LF :: b)) =
        ((fgetsRead (k + 1) (c :: (a ++ [LF]))).1, (fgetsRead (k + 1) (c :: (a ++ [LF]))).2 ++ b)
      by_cases hc : c = LF
      · simp [fgetsRead, hc]
      · simp only [fgetsRead, hc, if_false, ih a]

/-- What a read leaves of a stream that ends in a line feed is empty or ends in
a line feed. -/
theorem fgetsRead_rest_line (k : Nat) (a : List Byte) :
    (fgetsRead k (a ++ [LF])).2 = [] ∨ ∃ r, (fgetsRead k (a ++ [LF])).2 = r ++ [LF] := by
  rcases List.eq_nil_or_concat (fgetsRead k (a ++ [LF])).2 with h | ⟨r, z, h⟩
  · exact Or.inl h
  · right
    refine ⟨r, ?_⟩
    rw [List.concat_eq_append] at h
    have happ := fgetsRead_append k (a ++ [LF])
    rw [h, ← List.append_assoc] at happ
    have hz := congrArg List.getLast? happ
    simp at hz
    rw [h, hz]

/-- The filter treats what follows a line feed as it treats a stream of its
own. -/
theorem printed_append_line (wordLen : Nat) (b : List Byte) (a : List Byte) :
    printed wordLen (a ++ LF :: b) = printed wordLen (a ++ [LF]) ++ printed wordLen b := by
  obtain ⟨n, h⟩ : ∃ n, a.length = n := ⟨_, rfl⟩
  induction n using Nat.strong_induction_on generalizing a with
  | _ n ih =>
    have h1 : a ++ LF :: b ≠ [] := by simp
    have h2 : a ++ [LF] ≠ [] := by simp
    rw [printed_of_ne_nil wordLen _ h1, printed_of_ne_nil wordLen _ h2, fgetsRead_append_line]
    simp only [List.append_assoc]
    congr 1
    rcases fgetsRead_rest_line 256 a with h0 | ⟨r, hr⟩
    · rw [h0, printed_nil, List.nil_append, List.nil_append]
    · have hlt := fgetsRead_rest_lt (a ++ [LF]) h2
      rw [hr] at hlt ⊢
      simp only [List.length_append, List.length_singleton] at hlt
      rw [List.append_assoc, List.singleton_append]
      exact ih r.length (by omega) r rfl

/-! ## Lines of the input -/

theorem line_cases (input : List Byte) :
    LF ∉ input ∨ ∃ body rest, input = body ++ LF :: rest ∧ LF ∉ body := by
  induction input with
  | nil => left; simp
  | cons c s ih =>
    by_cases hc : c = LF
    · right; exact ⟨[], s, by simp [hc], by simp⟩
    · rcases ih with h | ⟨body, rest, h1, h2⟩
      · left
        simp only [List.mem_cons, not_or]
        exact ⟨fun e => hc e.symm, h⟩
      · right
        refine ⟨c :: body, rest, by simp [h1], ?_⟩
        simp only [List.mem_cons, not_or]
        exact ⟨fun e => hc e.symm, h2⟩

theorem splitLines_single (l : List Byte) (hl : l ≠ []) (hLF : LF ∉ l) :
    splitLines l = [l] := by
  induction l with
  | nil => exact absurd rfl hl
  | cons c s ih =>
    simp only [List.mem_cons, not_or] at hLF
    have hc : c ≠ LF := fun e => hLF.1 e.symm
    cases s with
    | nil => simp [splitLines, hc]
    | cons d s =>
      have := ih (by simp) hLF.2
      rw [splitLines]
      simp only [hc, if_false, this]

/-- A line without NUL whose word has at most 256 bytes and no line feed:
the filter prints the word when it has the wanted length. -/
theorem printed_single (wordLen : Nat) (hw : 1 ≤ wordLen) (l : List Byte) (hNUL : NUL ∉ l)
    (hLF : LF ∉ stripTerminators l) (hlen : (stripTerminators l).length ≤ 256) :
    printed wordLen l =
      if (stripTerminators l).length = wordLen then [stripTerminators l ++ [LF]] else [] := by
  obtain ⟨t, ht, hall⟩ := stripTerminators_split l
  have hsub : (stripTerminators l).IsPrefix l := stripTerminators_pre l
  have := printed_word wordLen hw (stripTerminators l) t hLF
    (fun h => hNUL (hsub.subset h)) hlen (stripTerminators_last l) hall
  rw [← ht] at this
  exact this

/-- The printed lines of an input without NUL whose lines have words of at
most 256 bytes: the words of the wanted length, in order, each followed by a
line feed. -/
theorem printed_lines (wordLen : Nat) (hw : 1 ≤ wordLen) (input : List Byte)
    (hNUL : NUL ∉ input)
    (hlen : ∀ l ∈ splitLines input, (stripTerminators l).length ≤ 256) :
    printed wordLen input =
      ((splitLines input).filter
        (fun l => decide ((stripTerminators l).length = wordLen))).map
        (fun l => stripTerminators l ++ [LF]) := by
  obtain ⟨n, h⟩ : ∃ n, input.length = n := ⟨_, rfl⟩
  induction n using Nat.strong_induction_on generalizing input with
  | _ n ih =>
    rcases line_cases input with hLF | ⟨body, rest, hin, hLF⟩
    · by_cases hnil : input = []
      · subst hnil
        simp [printed_nil, splitLines]
      · have hs := splitLines_single input hnil hLF
        have hsub : (stripTerminators input).IsPrefix input := stripTerminators_pre input
        rw [printed_single wordLen hw input hNUL (fun h => hLF (hsub.subset h))
          (hlen input (by rw [hs]; simp)), hs]
        by_cases hm : (stripTerminators input).length = wordLen
        · simp [hm]
        · simp [hm]
    · subst hin
      have hs := splitLines_line body rest hLF
      rw [hs] at hlen ⊢
      have hstrip : stripTerminators (body ++ [LF]) = stripTerminators body :=
        stripTerminators_append body [LF] (by intro x hx; simp at hx; subst hx; rfl)
      have hsub : (stripTerminators body).IsPrefix body := stripTerminators_pre body
      have hN1 : NUL ∉ body ++ [LF] := by
        intro hx
        rcases List.mem_append.mp hx with hx | hx
        · exact hNUL (List.mem_append_left _ hx)
        · simp [NUL, LF] at hx
      have hN2 : NUL ∉ rest := fun hx =>
        hNUL (List.mem_append_right _ (List.mem_cons_of_mem _ hx))
      have hfirst := printed_single wordLen hw (body ++ [LF]) hN1
        (by rw [hstrip]; exact fun h => hLF (hsub.subset h))
        (hlen _ (List.mem_cons_self _ _))
      have hrest := ih rest.length (by rw [← h]; simp; omega) rest hN2
        (fun l hl => hlen l (List.mem_cons_of_mem _ hl)) rfl
      rw [printed_append_line, hfirst, hrest]
      by_cases hm : (stripTerminators (body ++ [LF])).length = wordLen
      · simp [hm]
      · simp [hm]

/-! ## Claims about the filter -/

/-- The filter on `n` copies of the line `"a\n"` with `wordLen = 1` prints
every one of them. -/
theorem printed_replicate (n : Nat) :
    printed 1 (List.replicate n [97, LF]).flatten = List.replicate n [97, LF] := by
  induction n with
  | zero => rfl
  | succ n ih =>
    rw [List.replicate_succ, List.flatten_cons]
    have := printed_append_line 1 (List.replicate n [97, LF]).flatten [97]
    simp only [List.singleton_append] at this
    show printed 1 (97 :: LF :: (List.replicate n [97, LF]).flatten) = _
    rw [this, ih]
    rfl

/-- C1, as stated, fails.  (a) For the input of 257 bytes `a` and a line feed
and `wordLen = 1`, the only input line has 257 bytes after stripping, so no
input line has stripped length 1, yet the output has one line (`"a\n"`, from
the second read of the split line).  (b) For the input `"ab\0cd\n"` and
`wordLen = 2`, the only input line has stripped length 5, yet the output has the
line `"ab\n"`.  (c) For the input of `2 ^ 32` lines `"a\n"` and `wordLen = 1`,
the output has `2 ^ 32` lines and the returned count is 0. -/
theorem C1_counterexample :
    ((1 ≤ 1 ∧ 1 ≤ 255) ∧
      matchingLines (List.replicate 257 97 ++ [LF]) 1 = 0 ∧
      WriteNewDictionary (List.replicate 257 97 ++ [LF]) 1 = ([97, LF], 1) ∧
      (splitLines (WriteNewDictionary (List.replicate 257 97 ++ [LF]) 1).1).length ≠
        matchingLines (List.replicate 257 97 ++ [LF]) 1) ∧
    ((1 ≤ 2 ∧ 2 ≤ 255) ∧
      matchingLines [97, 98, NUL, 99, 100, LF] 2 = 0 ∧
      WriteNewDictionary [97, 98, NUL, 99, 100, LF] 2 = ([97, 98, LF], 1) ∧
      (splitLines (WriteNewDictionary [97, 98, NUL, 99, 100, LF] 2).1).length ≠
        matchingLines [97, 98, NUL, 99, 100, LF] 2) ∧
    ((splitLines (WriteNewDictionary (List.replicate (2 ^ 32) [97, LF]).flatten 1).1).length =
        2 ^ 32 ∧
      (WriteNewDictionary (List.replicate (2 ^ 32) [97, LF]).flatten 1).2 = 0 ∧
      (WriteNewDictionary (List.replicate (2 ^ 32) [97, LF]).flatten 1).2 ≠
        (splitLines (WriteNewDictionary (List.replicate (2 ^ 32) [97, LF]).flatten 1).1).length) := by
  refine ⟨by set_option maxRecDepth 100000 in decide, by decide, ?_⟩
  rw [splitLines_output, WriteNewDictionary_eq, printed_replicate, List.length_replicate]
  refine ⟨rfl, ?_, ?_⟩
  · show u32 (2 ^ 32) = 0
    unfold u32
    exact Nat.mod_self _
  · show u32 (2 ^ 32) ≠ 2 ^ 32
    unfold u32
    rw [Nat.mod_self]
    norm_num

/-- C1, amended: for every input without NUL byte in which every line has at
most 256 bytes after stripping trailing `'\n'`/`'\r'` bytes, and every
`wordLen ≥ 1`, the number of lines in the output of `WriteNewDictionary` equals
the number of input lines whose stripped length is `wordLen`, and the returned
count equals the number of output lines modulo `2 ^ 32`. -/
theorem C1_line_count (input : List Byte) (wordLen : Nat) (hw : 1 ≤ wordLen)
    (hNUL : NUL ∉ input)
    (hlen : ∀ l ∈ splitLines input, (stripTerminators l).length ≤ 256) :
    (splitLines (WriteNewDictionary input wordLen).1).length = matchingLines input wordLen ∧
      (WriteNewDictionary input wordLen).2 =
        (splitLines (WriteNewDictionary input wordLen).1).length % 2 ^ 32 := by
  rw [splitLines_output, WriteNewDictionary_eq]
  refine ⟨?_, rfl⟩
  rw [printed_lines wordLen hw input hNUL hlen, List.length_map]
  rfl

/-- C1, witness: scenario A, the input `"cat\ndog\nelephant\n"` with
`wordLen = 3`. -/
theorem C1_line_count_witness :
    (1 ≤ 3 ∧ NUL ∉ [99, 97, 116, 10, 100, 111, 103, 10, 101, 108, 101, 112, 104, 97, 110, 116, 10] ∧
      ∀ l ∈ splitLines [99, 97, 116, 10, 100, 111, 103, 10, 101, 108, 101, 112, 104, 97, 110, 116, 10],
        (stripTerminators l).length ≤ 256) ∧
    ((splitLines (WriteNewDictionary
        [99, 97, 116, 10, 100, 111, 103, 10, 101, 108, 101, 112, 104, 97, 110, 116, 10] 3).1).length =
      matchingLines [99, 97, 116, 10, 100, 111, 103, 10, 101, 108, 101, 112, 104, 97, 110, 116, 10] 3 ∧
     (WriteNewDictionary
        [99, 97, 116, 10, 100, 111, 103, 10, 101, 108, 101, 112, 104, 97, 110, 116, 10] 3).2 =
      (splitLines (WriteNewDictionary
        [99, 97, 116, 10, 100, 111, 103, 10, 101, 108, 101, 112, 104, 97, 110, 116, 10] 3).1).length
        % 2 ^ 32) :=
  ⟨by decide, C1_line_count _ 3 (by decide) (by decide) (by decide)⟩

/-- C2: every line of the output of `WriteNewDictionary` consists of exactly
`wordLen` bytes, none of them `'\n'` and the last one not `'\r'`, followed by a
single `'\n'`; and the length the tool itself measures for that line is
`wordLen`. -/
theorem C2_output_lines (input : List Byte) (wordLen : Nat) (l : List Byte)
    (hl : l ∈ splitLines (WriteNewDictionary input wordLen).1) :
    (∃ w : List Byte, l = w ++ [LF] ∧ w.length = wordLen ∧ LF ∉ w ∧ w.getLast? ≠ some CR) ∧
      measuredLength l = wordLen := by
  rw [splitLines_output] at hl
  have hword := printed_wordLine wordLen input l hl
  refine ⟨?_, measuredLength_wordLine wordLen l hword⟩
  obtain ⟨w, h1, h2, h3, -, h5, -⟩ := hword
  refine ⟨w, h1, h2, h3, ?_⟩
  intro hlast
  have hne : w ≠ [] := by
    intro e
    rw [e] at hlast
    simp at hlast
  apply h5 hne
  rw [List.getLast?_eq_getLast w hne] at hlast
  rw [Option.some.inj hlast]
  rfl

/-- C2, witness: the line `"cat\n"` of the output for `"cat\r\ndog\n"` and
`wordLen = 3`. -/
theorem C2_output_lines_witness :
    [99, 97, 116, 10] ∈ splitLines (WriteNewDictionary [99, 97, 116, 13, 10, 100, 111, 103, 10] 3).1 ∧
      ((∃ w : List Byte, [99, 97, 116, 10] = w ++ [LF] ∧ w.length = 3 ∧ LF ∉ w ∧
          w.getLast? ≠ some CR) ∧
        measuredLength [99, 97, 116, 10] = 3) :=
  ⟨by decide, C2_output_lines [99, 97, 116, 13, 10, 100, 111, 103, 10] 3 _ (by decide)⟩

/-- C3: `ValidateWordLenInt` returns true exactly for the values from 1 to 255;
1 and 255 are accepted, 0 and 256 are rejected. -/
theorem C3_ValidateWordLenInt (wordLen : Nat) :
    (ValidateWordLenInt wordLen = true ↔ 1 ≤ wordLen ∧ wordLen ≤ 255) ∧
      ValidateWordLenInt 1 = true ∧ ValidateWordLenInt 255 = true ∧
      ValidateWordLenInt 0 = false ∧ ValidateWordLenInt 256 = false := by
  refine ⟨?_, by decide, by decide, by decide, by decide⟩
  unfold ValidateWordLenInt MAX_WORDLEN
  split_ifs with h
  · simp only [Bool.false_eq_true, false_iff]
    omega
  · simp only [true_iff]
    omega

/-! ## `strtoul` and the word-length argument -/

theorem readDigits_rest (s : List Char) :
    ∀ acc, (readDigits s acc).2 = s.dropWhile isdigit := by
  induction s with
  | nil => intro acc; rfl
  | cons c s ih =>
    intro acc
    by_cases hc : isdigit c = true
    · simp only [readDigits, hc, if_true, List.dropWhile_cons_of_pos hc, ih]
    · rw [List.dropWhile_cons_of_neg hc]
      simp [readDigits, hc]

theorem readDigits_value (s : List Char) (hs : s.all isdigit = true) :
    ∀ acc, (readDigits s acc).1 =
      s.foldl (fun a c => 10 * a + (c.toNat - '0'.toNat)) acc := by
  induction s with
  | nil => intro acc; rfl
  | cons c s ih =>
    intro acc
    simp only [List.all_cons, Bool.and_eq_true] at hs
    simp only [readDigits, hs.1, if_true, List.foldl_cons]
    exact ih hs.2 _

theorem numericShape_eq (s : CStr) :
    numericShape s =
      (!(readSign (s.dropWhile isspace)).2.isEmpty &&
        (readSign (s.dropWhile isspace)).2.all isdigit) := by
  unfold numericShape readSign
  generalize s.dropWhile isspace = t
  simp only
  split <;> split <;> simp_all

/-- Where `strtoul` stops: at the end of the string only if the string has the
numeric shape. -/
theorem strtoul_rest (ulongMax : Nat) (s : CStr) (hs : s ≠ [])
    (hend : (strtoul ulongMax s).2 = []) : numericShape s = true := by
  rw [numericShape_eq]
  unfold strtoul at hend
  simp only at hend
  cases hu : (readSign (List.dropWhile isspace s)).2 with
  | nil =>
    rw [hu] at hend
    exact absurd hend hs
  | cons c u =>
    rw [hu] at hend
    simp only at hend
    by_cases hc : isdigit c = true
    · simp only [hc, if_true] at hend
      have hrest : (readDigits (c :: u) 0).2 = [] := by
        split_ifs at hend <;> exact hend
      rw [readDigits_rest, List.dropWhile_eq_nil_iff] at hrest
      simp only [List.isEmpty_cons, Bool.not_false, Bool.true_and, List.all_eq_true]
      exact hrest
    · simp only [hc, if_false] at hend
      exact absurd hend hs

/-- The three outcomes of `ValidateArgs`. -/
theorem ValidateArgs_cases (argc : Int) (argv : List (Option CStr)) :
    (argc ≠ NUM_REQ_ARGS ∧ ValidateArgs argc argv = (false, [])) ∨
      (argc = NUM_REQ_ARGS ∧ ∃ m, ValidateArgs argc argv = (false, [Event.stderr m])) ∨
      (argc = NUM_REQ_ARGS ∧ ValidateArgs argc argv = (true, [])) := by
  by_cases hc : argc = NUM_REQ_ARGS
  · right
    unfold ValidateArgs
    rw [if_neg (not_not.mpr hc)]
    cases h1 : argAt argv ARG_INPATH with
    | none => exact Or.inl ⟨hc, _, rfl⟩
    | some i =>
      cases i with
      | nil => exact Or.inl ⟨hc, _, rfl⟩
      | cons a i =>
        cases h2 : argAt argv ARG_OUTPATH with
        | none => exact Or.inl ⟨hc, _, rfl⟩
        | some o =>
          cases o with
          | nil => exact Or.inl ⟨hc, _, rfl⟩
          | cons b o =>
            dsimp only
            by_cases he : a :: i = b :: o
            · rw [if_pos he]
              exact Or.inl ⟨hc, _, rfl⟩
            · rw [if_neg he]
              by_cases hv : ValidateWordLenString (argAt argv ARG_WORDLEN) = true
              · right
                refine ⟨hc, ?_⟩
                simp [hv]
              · left
                exact ⟨hc, Msg.invalidWordLen (argAt argv ARG_WORDLEN), by simp [hv]⟩
  · left
    refine ⟨hc, ?_⟩
    unfold ValidateArgs
    rw [if_pos hc]

theorem ValidateArgs_events (argc : Int) (argv : List (Option CStr)) :
    (ValidateArgs argc argv).2 = [] ∨ ∃ m, (ValidateArgs argc argv).2 = [Event.stderr m] := by
  rcases ValidateArgs_cases argc argv with ⟨_, h⟩ | ⟨_, m, h⟩ | ⟨_, h⟩
  · left; rw [h]
  · right; exact ⟨m, by rw [h]⟩
  · left; rw [h]

/-- What `ValidateArgs` has checked when it returns true. -/
theorem ValidateArgs_true (argc : Int) (argv : List (Option CStr)) :
    (ValidateArgs argc argv).1 = true ↔
      argc = NUM_REQ_ARGS ∧
      (∃ i, argAt argv ARG_INPATH = some i ∧ i ≠ []) ∧
      (∃ o, argAt argv ARG_OUTPATH = some o ∧ o ≠ []) ∧
      argAt argv ARG_INPATH ≠ argAt argv ARG_OUTPATH ∧
      (∃ s, argAt argv ARG_WORDLEN = some s ∧ s ≠ []) := by
  unfold ValidateArgs
  by_cases hc : argc = NUM_REQ_ARGS
  · rw [if_neg (not_not.mpr hc)]
    cases h1 : argAt argv ARG_INPATH with
    | none => simp
    | some i =>
      cases i with
      | nil => simp
      | cons a i =>
        cases h2 : argAt argv ARG_OUTPATH with
        | none => simp
        | some o =>
          cases o with
          | nil => simp
          | cons b o =>
            dsimp only
            by_cases he : a :: i = b :: o
            · rw [if_pos he]
              simp [he]
            · rw [if_neg he]
              have he2 : ¬ (a = b ∧ i = o) := by
                intro h
                exact he (by rw [h.1, h.2])
              cases h3 : argAt argv ARG_WORDLEN with
              | none => simp [ValidateWordLenString]
              | some s =>
                cases s with
                | nil => simp [ValidateWordLenString]
                | cons c s => simp [ValidateWordLenString, hc, he2]
  · rw [if_pos hc]
    simp [hc]

/-! ## The three stages of `main` -/

theorem parseWordLen_eq (w : World) (argv : List (Option CStr)) :
    parseWordLen w argv =
      (u32 (strtoul w.ulongMax (deref (argAt argv ARG_WORDLEN))).1,
        (strtoul w.ulongMax (deref (argAt argv ARG_WORDLEN))).2) := rfl

/-- Failed validation: `main` prints what `ValidateArgs` printed and the usage
line, and returns 1. -/
theorem main_invalid (w : World) (argc : Int) (argv : List (Option CStr))
    (h : (ValidateArgs argc argv).1 = false) :
    main w argc argv =
      { exit := 1, events := (ValidateArgs argc argv).2 ++ [Event.stdout Msg.usage],
        file := w.file } := by
  unfold main
  simp [h]

/-- A length that is not converted in full or is out of range: `main` prints
the diagnostic and returns 1. -/
theorem main_badlen (w : World) (argc : Int) (argv : List (Option CStr))
    (h : (ValidateArgs argc argv).1 = true)
    (hp : (parseWordLen w argv).2 ≠ [] ∨ ValidateWordLenInt (parseWordLen w argv).1 = false) :
    main w argc argv =
      { exit := 1
        events := [Event.stderr (Msg.invalidWordLen (argAt argv ARG_WORDLEN))]
        file := w.file } := by
  have hv := ValidateArgs_cases argc argv
  have hev : (ValidateArgs argc argv).2 = [] := by
    rcases hv with ⟨_, h1⟩ | ⟨_, m, h1⟩ | ⟨_, h1⟩
    · rw [h1] at h; simp at h
    · rw [h1] at h; simp at h
    · rw [h1]
  rw [parseWordLen_eq] at hp
  simp only at hp
  unfold main
  simp only [h, hev, Bool.not_true, Bool.false_eq_true, if_false, List.nil_append]
  rw [if_pos]
  rcases hp with hp | hp
  · exact Or.inl hp
  · right
    rw [hp]
    rfl

/-- Valid arguments and length: `main` opens the files, and filters when both
are open. -/
theorem main_open (w : World) (argc : Int) (argv : List (Option CStr))
    (h : (ValidateArgs argc argv).1 = true)
    (hp1 : (parseWordLen w argv).2 = [])
    (hp2 : ValidateWordLenInt (parseWordLen w argv).1 = true) :
    main w argc argv =
      match (OpenFileHandle w (deref (argAt argv ARG_INPATH))
          (deref (argAt argv ARG_OUTPATH))).handle with
      | none =>
        { exit := 1
          events := (OpenFileHandle w (deref (argAt argv ARG_INPATH))
            (deref (argAt argv ARG_OUTPATH))).events
          file := (OpenFileHandle w (deref (argAt argv ARG_INPATH))
            (deref (argAt argv ARG_OUTPATH))).file }
      | some fileHandle =>
        { exit := 0
          events := (OpenFileHandle w (deref (argAt argv ARG_INPATH))
              (deref (argAt argv ARG_OUTPATH))).events ++
            [Event.stdout (Msg.wrote
              (WriteNewDictionary fileHandle.fpIn (parseWordLen w argv).1).2
              (parseWordLen w argv).1)] ++ CloseFileHandle fileHandle
          file := setFile w.sameFile (OpenFileHandle w (deref (argAt argv ARG_INPATH))
              (deref (argAt argv ARG_OUTPATH))).file fileHandle.fpOut
            (match (OpenFileHandle w (deref (argAt argv ARG_INPATH))
                (deref (argAt argv ARG_OUTPATH))).file fileHandle.fpOut with
              | some held =>
                held ++ w.stored (WriteNewDictionary fileHandle.fpIn (parseWordLen w argv).1).1
              | none =>
                w.stored (WriteNewDictionary fileHandle.fpIn (parseWordLen w argv).1).1) } := by
  have hv := ValidateArgs_cases argc argv
  have hev : (ValidateArgs argc argv).2 = [] := by
    rcases hv with ⟨_, h1⟩ | ⟨_, m, h1⟩ | ⟨_, h1⟩
    · rw [h1] at h; simp at h
    · rw [h1] at h; simp at h
    · rw [h1]
  rw [parseWordLen_eq] at hp1 hp2
  simp only at hp1 hp2
  unfold main
  simp only [h, hev, Bool.not_true, Bool.false_eq_true, if_false, List.nil_append, hp1, hp2,
    ne_eq, not_true_eq_false, or_self, parseWordLen_eq]

/-- The four outcomes of `OpenFileHandle`. -/
theorem OpenFileHandle_cases (w : World) (inPath outPath : CStr) :
    (w.mallocOk = false ∧
        OpenFileHandle w inPath outPath =
          { handle := none, events := [Event.stderr Msg.allocFail], file := w.file }) ∨
      (w.mallocOk = true ∧ w.file inPath = none ∧
        OpenFileHandle w inPath outPath =
          { handle := none
            events := [Event.fopen inPath false false, Event.stderr (Msg.cantOpen inPath)]
            file := w.file }) ∨
      (w.mallocOk = true ∧ (∃ bytes, w.file inPath = some bytes) ∧ w.writable outPath = false ∧
        OpenFileHandle w inPath outPath =
          { handle := none
            events := [Event.fopen inPath false true, Event.fopen outPath true false,
              Event.stderr (Msg.cantOpen outPath), Event.fclose inPath]
            file := w.file }) ∨
      (w.mallocOk = true ∧ w.writable outPath = true ∧ ∃ bytes, w.file inPath = some bytes ∧
        OpenFileHandle w inPath outPath =
          { handle := some
              { fpIn := if inPath = outPath ∨ w.sameFile inPath outPath = true then [] else bytes
                inPath := inPath
                fpOut := outPath }
            events := [Event.fopen inPath false true, Event.fopen outPath true true]
            file := setFile w.sameFile w.file outPath [] }) := by
  unfold OpenFileHandle
  cases hm : w.mallocOk with
  | false => left; simp
  | true =>
    right
    cases hf : w.file inPath with
    | none => left; simp
    | some bytes =>
      right
      cases hw : w.writable outPath with
      | false => left; simp
      | true => right; simp

/-! ## Claims about the arguments and about `main` -/

/-- C4, as stated, fails: the string `"+5"` is not purely a sequence of decimal
digits, yet `main` accepts it, opens both files and returns 0. -/
theorem C4_counterexample :
    allDigits ['+', '5'] = false ∧
      (main sampleWorld 4 (sampleArgs ['+', '5'])).exit = 0 ∧
      (main sampleWorld 4 (sampleArgs ['+', '5'])).events =
        [Event.fopen ['i', 'n'] false true, Event.fopen ['o', 'u', 't'] true true,
          Event.stdout (Msg.wrote 0 5), Event.fclose ['i', 'n'], Event.fclose ['o', 'u', 't']] := by
  decide

/-- C4, amended: a word-length argument that `strtoul` does not convert in
full, that is, a string not of the shape optional white space, optional sign,
one or more decimal digits (such as `"12a"`), is rejected: `main` returns 1,
never calls `fopen` and leaves the file system as it was; and when the argument
count is 4 and the two paths are non-empty and different, it prints the
invalid-word-length diagnostic to `stderr`. -/
theorem C4_rejects_unparsed (w : World) (argc : Int) (argv : List (Option CStr)) (s : CStr)
    (hs : argAt argv ARG_WORDLEN = some s) (hshape : numericShape s = false) :
    (main w argc argv).exit = 1 ∧
      (∀ e ∈ (main w argc argv).events, e.isOpen = false) ∧
      (main w argc argv).file = w.file ∧
      (argc = NUM_REQ_ARGS →
        (∃ i, argAt argv ARG_INPATH = some i ∧ i ≠ []) →
        (∃ o, argAt argv ARG_OUTPATH = some o ∧ o ≠ []) →
        argAt argv ARG_INPATH ≠ argAt argv ARG_OUTPATH →
        Event.stderr (Msg.invalidWordLen (some s)) ∈ (main w argc argv).events) := by
  by_cases hv : (ValidateArgs argc argv).1 = true
  · have hne : s ≠ [] := by
      obtain ⟨-, -, -, -, s', hs', hne'⟩ := (ValidateArgs_true argc argv).mp hv
      rw [hs] at hs'
      rw [Option.some.inj hs']
      exact hne'
    have hrest : (parseWordLen w argv).2 ≠ [] := by
      intro hend
      rw [parseWordLen_eq, hs] at hend
      have := strtoul_rest w.ulongMax s hne hend
      rw [hshape] at this
      exact Bool.false_ne_true this
    rw [main_badlen w argc argv hv (Or.inl hrest), hs]
    refine ⟨rfl, ?_, rfl, ?_⟩
    · intro e he
      simp only [List.mem_singleton] at he
      rw [he]
      rfl
    · intro _ _ _ _
      simp
  · have hv' : (ValidateArgs argc argv).1 = false := by simpa using hv
    rw [main_invalid w argc argv hv']
    refine ⟨rfl, ?_, rfl, ?_⟩
    · intro e he
      simp only [List.mem_append, List.mem_singleton] at he
      rcases he with he | he
      · rcases ValidateArgs_events argc argv with h0 | ⟨m, h0⟩
        · rw [h0] at he; simp at he
        · rw [h0] at he
          simp only [List.mem_singleton] at he
          rw [he]; rfl
      · rw [he]; rfl
    · intro h1 h2 h3 h4
      have hs0 : s = [] := by
        by_contra hne
        exact hv ((ValidateArgs_true argc argv).mpr ⟨h1, h2, h3, h4, s, hs, hne⟩)
      subst hs0
      obtain ⟨i, hi, hine⟩ := h2
      obtain ⟨o, ho, hone⟩ := h3
      have hio : i ≠ o := by
        intro e
        apply h4
        rw [hi, ho, e]
      have : (ValidateArgs argc argv).2 = [Event.stderr (Msg.invalidWordLen (some []))] := by
        unfold ValidateArgs
        rw [if_neg (not_not.mpr h1), hi, ho, hs]
        cases i with
        | nil => exact absurd rfl hine
        | cons a i =>
          cases o with
          | nil => exact absurd rfl hone
          | cons b o =>
            dsimp only
            rw [if_neg hio]
            rfl
      simp [this]

/-- C4, witness: scenario E, the length string `"12a"`. -/
theorem C4_rejects_unparsed_witness :
    (argAt (sampleArgs ['1', '2', 'a']) ARG_WORDLEN = some ['1', '2', 'a'] ∧
      numericShape ['1', '2', 'a'] = false) ∧
    ((main sampleWorld 4 (sampleArgs ['1', '2', 'a'])).exit = 1 ∧
      (∀ e ∈ (main sampleWorld 4 (sampleArgs ['1', '2', 'a'])).events, e.isOpen = false) ∧
      (main sampleWorld 4 (sampleArgs ['1', '2', 'a'])).file = sampleWorld.file ∧
      ((4 : Int) = NUM_REQ_ARGS →
        (∃ i, argAt (sampleArgs ['1', '2', 'a']) ARG_INPATH = some i ∧ i ≠ []) →
        (∃ o, argAt (sampleArgs ['1', '2', 'a']) ARG_OUTPATH = some o ∧ o ≠ []) →
        argAt (sampleArgs ['1', '2', 'a']) ARG_INPATH ≠
          argAt (sampleArgs ['1', '2', 'a']) ARG_OUTPATH →
        Event.stderr (Msg.invalidWordLen (some ['1', '2', 'a'])) ∈
          (main sampleWorld 4 (sampleArgs ['1', '2', 'a'])).events)) :=
  ⟨by decide, C4_rejects_unparsed sampleWorld 4 (sampleArgs ['1', '2', 'a']) ['1', '2', 'a']
    (by decide) (by decide)⟩

/-- C5 fails on the code where `unsigned long` has 64 bits: the digit string
`"4294967297"` has the value `2 ^ 32 + 1 > 255`, `strtoul` returns it, the cast
to `uint32_t` makes it 1, and `main` opens the files, filters for words of
length 1 and returns 0. -/
theorem C5_narrowed_length_accepted :
    allDigits ['4', '2', '9', '4', '9', '6', '7', '2', '9', '7'] = true ∧
      decimalValue ['4', '2', '9', '4', '9', '6', '7', '2', '9', '7'] = 2 ^ 32 + 1 ∧
      parseWordLen sampleWorld (sampleArgs ['4', '2', '9', '4', '9', '6', '7', '2', '9', '7']) =
        (1, []) ∧
      (main sampleWorld 4
        (sampleArgs ['4', '2', '9', '4', '9', '6', '7', '2', '9', '7'])).exit = 0 ∧
      (main sampleWorld 4
        (sampleArgs ['4', '2', '9', '4', '9', '6', '7', '2', '9', '7'])).events =
        [Event.fopen ['i', 'n'] false true, Event.fopen ['o', 'u', 't'] true true,
          Event.stdout (Msg.wrote 0 1), Event.fclose ['i', 'n'], Event.fclose ['o', 'u', 't']] := by
  decide

/-- C6: `ValidateArgs` returns true exactly when the argument count is 4, the
input path is present and non-empty, the output path is present and non-empty,
the two paths differ, and the word-length string is present and non-empty; in
every other case it returns false. -/
theorem C6_ValidateArgs (argc : Int) (argv : List (Option CStr)) :
    ((ValidateArgs argc argv).1 = true ↔
      argc = 4 ∧
      (∃ i, argAt argv 1 = some i ∧ i ≠ []) ∧
      (∃ o, argAt argv 2 = some o ∧ o ≠ []) ∧
      argAt argv 1 ≠ argAt argv 2 ∧
      (∃ s, argAt argv 3 = some s ∧ s ≠ [])) ∧
    ((ValidateArgs argc argv).1 = false ↔
      ¬ (argc = 4 ∧
        (∃ i, argAt argv 1 = some i ∧ i ≠ []) ∧
        (∃ o, argAt argv 2 = some o ∧ o ≠ []) ∧
        argAt argv 1 ≠ argAt argv 2 ∧
        (∃ s, argAt argv 3 = some s ∧ s ≠ []))) := by
  have h : (ValidateArgs argc argv).1 = true ↔
      argc = 4 ∧
      (∃ i, argAt argv 1 = some i ∧ i ≠ []) ∧
      (∃ o, argAt argv 2 = some o ∧ o ≠ []) ∧
      argAt argv 1 ≠ argAt argv 2 ∧
      (∃ s, argAt argv 3 = some s ∧ s ≠ []) := ValidateArgs_true argc argv
  refine ⟨h, ?_⟩
  rw [← h]
  simp

theorem ValidateWordLenInt_iff (wordLen : Nat) :
    ValidateWordLenInt wordLen = true ↔ 1 ≤ wordLen ∧ wordLen ≤ 255 := by
  unfold ValidateWordLenInt MAX_WORDLEN
  split_ifs with h
  · simp only [Bool.false_eq_true, false_iff]
    omega
  · simp only [true_iff]
    omega

/-- The exit code of `main` in terms of the environment. -/
theorem main_exit_zero_iff (w : World) (argc : Int) (argv : List (Option CStr)) :
    (main w argc argv).exit = 0 ↔
      (ValidateArgs argc argv).1 = true ∧ (parseWordLen w argv).2 = [] ∧
      ValidateWordLenInt (parseWordLen w argv).1 = true ∧
      w.mallocOk = true ∧ (∃ bytes, w.file (deref (argAt argv ARG_INPATH)) = some bytes) ∧
      w.writable (deref (argAt argv ARG_OUTPATH)) = true := by
  by_cases hv : (ValidateArgs argc argv).1 = true
  · by_cases hp1 : (parseWordLen w argv).2 = []
    · by_cases hp2 : ValidateWordLenInt (parseWordLen w argv).1 = true
      · rw [main_open w argc argv hv hp1 hp2]
        rcases OpenFileHandle_cases w (deref (argAt argv ARG_INPATH))
          (deref (argAt argv ARG_OUTPATH)) with
          ⟨hm, ho⟩ | ⟨hm, hf, ho⟩ | ⟨hm, ⟨bytes, hf⟩, hw, ho⟩ | ⟨hm, hw, bytes, hf, ho⟩
        · rw [ho]; simp [hm]
        · rw [ho]; simp [hf]
        · rw [ho]; simp [hw]
        · rw [ho]; simp [hv, hp1, hp2, hm, hw, hf]
      · rw [main_badlen w argc argv hv (Or.inr (by simpa using hp2))]
        simp [hp2]
    · rw [main_badlen w argc argv hv (Or.inl hp1)]
      simp [hp1]
  · rw [main_invalid w argc argv (by simpa using hv)]
    simp [hv]

theorem main_exit_cases (w : World) (argc : Int) (argv : List (Option CStr)) :
    (main w argc argv).exit = 0 ∨ (main w argc argv).exit = 1 := by
  by_cases hv : (ValidateArgs argc argv).1 = true
  · by_cases hp1 : (parseWordLen w argv).2 = []
    · by_cases hp2 : ValidateWordLenInt (parseWordLen w argv).1 = true
      · rw [main_open w argc argv hv hp1 hp2]
        split
        · right; rfl
        · left; rfl
      · rw [main_badlen w argc argv hv (Or.inr (by simpa using hp2))]
        right; rfl
    · rw [main_badlen w argc argv hv (Or.inl hp1)]
      right; rfl
  · rw [main_invalid w argc argv (by simpa using hv)]
    right; rfl

/-- Past validation and parsing, the two successful `fopen` calls are in the
trace exactly when `OpenFileHandle` could open both files. -/
theorem main_open_events (w : World) (argc : Int) (argv : List (Option CStr))
    (hv : (ValidateArgs argc argv).1 = true) (hp1 : (parseWordLen w argv).2 = [])
    (hp2 : ValidateWordLenInt (parseWordLen w argv).1 = true) :
    (Event.fopen (deref (argAt argv ARG_INPATH)) false true ∈ (main w argc argv).events ∧
      Event.fopen (deref (argAt argv ARG_OUTPATH)) true true ∈ (main w argc argv).events) ↔
    (w.mallocOk = true ∧ (∃ bytes, w.file (deref (argAt argv ARG_INPATH)) = some bytes) ∧
      w.writable (deref (argAt argv ARG_OUTPATH)) = true) := by
  rw [main_open w argc argv hv hp1 hp2]
  rcases OpenFileHandle_cases w (deref (argAt argv ARG_INPATH))
    (deref (argAt argv ARG_OUTPATH)) with
    ⟨hm, ho⟩ | ⟨hm, hf, ho⟩ | ⟨hm, ⟨bytes, hf⟩, hw, ho⟩ | ⟨hm, hw, bytes, hf, ho⟩
  · rw [ho]; simp [hm]
  · rw [ho]; simp [hf]
  · rw [ho]; simp [hw]
  · rw [ho]; simp [hm, hw, hf]

/-- The exit code of `main` in terms of the tests that `main` itself makes:
`main` returns 0 exactly when `ValidateArgs` passes, `strtoul` stops at the end
of the length string, the `uint32_t wordLen` that the cast leaves is between 1
and 255, and both `fopen` calls succeed; otherwise it returns 1, and it returns
no other value.  Both files are opened successfully exactly when `malloc`
succeeds, the input file can be read and the output file can be written.  The
`wordLen` tested here is the value after the cast, which is not the value of
the length string when that value is `2 ^ 32` or more. -/
theorem main_exit_code (w : World) (argc : Int) (argv : List (Option CStr)) :
    ((main w argc argv).exit = 0 ↔
      (ValidateArgs argc argv).1 = true ∧
      (parseWordLen w argv).2 = [] ∧
      (1 ≤ (parseWordLen w argv).1 ∧ (parseWordLen w argv).1 ≤ 255) ∧
      Event.fopen (deref (argAt argv ARG_INPATH)) false true ∈ (main w argc argv).events ∧
      Event.fopen (deref (argAt argv ARG_OUTPATH)) true true ∈ (main w argc argv).events) ∧
    ((main w argc argv).exit = 0 ↔
      (ValidateArgs argc argv).1 = true ∧
      (parseWordLen w argv).2 = [] ∧
      (1 ≤ (parseWordLen w argv).1 ∧ (parseWordLen w argv).1 ≤ 255) ∧
      w.mallocOk = true ∧ (w.file (deref (argAt argv ARG_INPATH))).isSome = true ∧
      w.writable (deref (argAt argv ARG_OUTPATH)) = true) ∧
    ((main w argc argv).exit ≠ 0 ↔ (main w argc argv).exit = 1) := by
  have hz := main_exit_zero_iff w argc argv
  have hc := main_exit_cases w argc argv
  refine ⟨?_, ?_, ?_⟩
  · rw [hz, ← ValidateWordLenInt_iff]
    constructor
    · rintro ⟨hv, hp1, hp2, hrest⟩
      have := (main_open_events w argc argv hv hp1 hp2).mpr hrest
      exact ⟨hv, hp1, hp2, this.1, this.2⟩
    · rintro ⟨hv, hp1, hp2, he1, he2⟩
      exact ⟨hv, hp1, hp2, (main_open_events w argc argv hv hp1 hp2).mp ⟨he1, he2⟩⟩
  · rw [hz, ← ValidateWordLenInt_iff]
    simp only [Option.isSome_iff_exists]
  · rcases hc with h | h
    · rw [h]; simp
    · rw [h]; simp

/-- C7 fails on the code where `unsigned long` has 64 bits.  The length string
`"4294967297"` is converted in full by `strtoul` to `2 ^ 32 + 1`, which is not a
value from 1 to 255, and the string `"-4294967295"` to `2 ^ 64 - 4294967295`;
the cast to `uint32_t` makes both 1, the range test passes, both files are
opened and `main` returns 0. -/
theorem C7_exit_zero_out_of_range :
    (strtoul sampleWorld.ulongMax ['4', '2', '9', '4', '9', '6', '7', '2', '9', '7'] =
        (4294967297, []) ∧
      ¬ (1 ≤ 4294967297 ∧ 4294967297 ≤ 255) ∧
      (ValidateArgs 4 (sampleArgs ['4', '2', '9', '4', '9', '6', '7', '2', '9', '7'])).1 = true ∧
      (main sampleWorld 4
        (sampleArgs ['4', '2', '9', '4', '9', '6', '7', '2', '9', '7'])).exit = 0) ∧
    (strtoul sampleWorld.ulongMax ['-', '4', '2', '9', '4', '9', '6', '7', '2', '9', '5'] =
        (18446744069414584321, []) ∧
      ¬ (1 ≤ 18446744069414584321 ∧ 18446744069414584321 ≤ 255) ∧
      (main sampleWorld 4
        (sampleArgs ['-', '4', '2', '9', '4', '9', '6', '7', '2', '9', '5'])).exit = 0 ∧
      (main sampleWorld 4
        (sampleArgs ['-', '4', '2', '9', '4', '9', '6', '7', '2', '9', '5'])).events =
        [Event.fopen ['i', 'n'] false true, Event.fopen ['o', 'u', 't'] true true,
          Event.stdout (Msg.wrote 0 1), Event.fclose ['i', 'n'], Event.fclose ['o', 'u', 't']]) := by
  decide

/-- C9: if the input path cannot be opened for reading, `OpenFileHandle`
returns no handle, never calls `fopen` in write mode, and leaves the file
system as it was: the output file is neither created nor truncated. -/
theorem C9_input_open_failure (w : World) (inFilePath outFilePath : CStr)
    (h : w.file inFilePath = none) :
    (OpenFileHandle w inFilePath outFilePath).handle = none ∧
      (∀ e ∈ (OpenFileHandle w inFilePath outFilePath).events,
        ∀ p ok, e ≠ Event.fopen p true ok) ∧
      (OpenFileHandle w inFilePath outFilePath).file = w.file := by
  rcases OpenFileHandle_cases w inFilePath outFilePath with
    ⟨hm, ho⟩ | ⟨hm, hf, ho⟩ | ⟨hm, ⟨bytes, hf⟩, hw, ho⟩ | ⟨hm, hw, bytes, hf, ho⟩
  · rw [ho]
    refine ⟨rfl, ?_, rfl⟩
    intro e he p ok
    simp only [List.mem_singleton] at he
    rw [he]
    exact Event.noConfusion
  · rw [ho]
    refine ⟨rfl, ?_, rfl⟩
    intro e he p ok
    simp only [List.mem_cons, List.mem_singleton, List.not_mem_nil, or_false] at he
    rcases he with he | he
    · rw [he]
      intro e2
      have := (Event.fopen.inj e2).2.1
      exact Bool.false_ne_true this
    · rw [he]
      exact Event.noConfusion
  · rw [h] at hf
    exact Option.noConfusion hf
  · rw [h] at hf
    exact Option.noConfusion hf

/-- C9, witness: the input path `missing` does not exist. -/
theorem C9_input_open_failure_witness :
    sampleWorld.file ['m', 'i', 's', 's', 'i', 'n', 'g'] = none ∧
    ((OpenFileHandle sampleWorld ['m', 'i', 's', 's', 'i', 'n', 'g'] ['o', 'u', 't']).handle
        = none ∧
      (∀ e ∈ (OpenFileHandle sampleWorld ['m', 'i', 's', 's', 'i', 'n', 'g']
          ['o', 'u', 't']).events, ∀ p ok, e ≠ Event.fopen p true ok) ∧
      (OpenFileHandle sampleWorld ['m', 'i', 's', 's', 'i', 'n', 'g'] ['o', 'u', 't']).file =
        sampleWorld.file) :=
  ⟨by decide, C9_input_open_failure sampleWorld _ _ (by decide)⟩

theorem isdigit_not_isspace (c : Char) (h : isdigit c = true) : isspace c = false := by
  cases hs : isspace c with
  | false => rfl
  | true =>
    unfold isspace at hs
    simp only [Bool.or_eq_true, decide_eq_true_eq] at hs
    rcases hs with ((((hs | hs) | hs) | hs) | hs) | hs <;> subst hs <;> revert h <;> decide

theorem readSign_digit (c : Char) (s : List Char) (h : isdigit c = true) :
    readSign (c :: s) = (false, c :: s) := by
  unfold readSign
  split
  · rename_i t heq
    have hc : c = '-' := (List.cons.inj heq).1
    subst hc
    exact absurd h (by decide)
  · rename_i t heq
    have hc : c = '+' := (List.cons.inj heq).1
    subst hc
    exact absurd h (by decide)
  · rfl

/-- On a string of decimal digits `strtoul` returns the numeric value, or
`ulongMax` when the value is larger, and stops at the end of the string. -/
theorem strtoul_digits (ulongMax : Nat) (s : CStr) (hne : s ≠ [])
    (hd : allDigits s = true) :
    strtoul ulongMax s = (min (decimalValue s) ulongMax, []) := by
  cases s with
  | nil => exact absurd rfl hne
  | cons c s =>
    have hd' : (c :: s).all isdigit = true := hd
    have hc : isdigit c = true := by
      simp only [List.all_cons, Bool.and_eq_true] at hd'
      exact hd'.1
    have hsp : List.dropWhile isspace (c :: s) = c :: s :=
      List.dropWhile_cons_of_neg (by rw [isdigit_not_isspace c hc]; simp)
    have hrest : (readDigits (c :: s) 0).2 = [] := by
      rw [readDigits_rest, List.dropWhile_eq_nil_iff]
      simpa using hd'
    have hval : (readDigits (c :: s) 0).1 = decimalValue (c :: s) :=
      readDigits_value (c :: s) hd' 0
    unfold strtoul
    simp only [hsp, readSign_digit c s hc, hc, if_true, hrest, hval, Bool.false_eq_true, if_false]
    by_cases hgt : decimalValue (c :: s) > ulongMax
    · rw [if_pos hgt, Nat.min_eq_right (Nat.le_of_lt hgt)]
    · rw [if_neg hgt, Nat.min_eq_left (Nat.le_of_not_gt hgt)]

/-- The `wordLen` of `main` for a length string of decimal digits. -/
theorem parseWordLen_digits (w : World) (argv : List (Option CStr)) (s : CStr)
    (hs : argAt argv ARG_WORDLEN = some s) (hne : s ≠ []) (hd : allDigits s = true) :
    parseWordLen w argv = (u32 (min (decimalValue s) w.ulongMax), []) := by
  rw [parseWordLen_eq, hs]
  show (u32 (strtoul w.ulongMax s).1, (strtoul w.ulongMax s).2) = _
  rw [strtoul_digits w.ulongMax s hne hd]

/-- Where `unsigned long` has 32 bits, a length string of decimal digits passes
the length test of `main` exactly when its value is between 1 and 255. -/
theorem parseWordLen_digits_32 (w : World) (argv : List (Option CStr)) (s : CStr)
    (hw : w.ulongMax = 2 ^ 32 - 1)
    (hs : argAt argv ARG_WORDLEN = some s) (hne : s ≠ []) (hd : allDigits s = true) :
    ((parseWordLen w argv).2 = [] ∧ ValidateWordLenInt (parseWordLen w argv).1 = true) ↔
      (1 ≤ decimalValue s ∧ decimalValue s ≤ 255) := by
  rw [parseWordLen_digits w argv s hs hne hd, ValidateWordLenInt_iff, hw]
  simp only [true_and]
  unfold u32
  have h32 : (2 : Nat) ^ 32 = 4294967296 := by norm_num
  rw [h32]
  omega

/-! ## Word lists with LF and with CRLF line ends -/

theorem word_last_not_terminator (w : List Byte) (hLF : LF ∉ w) (hCR : CR ∉ w) :
    ∀ h : w ≠ [], ¬ isTerminator (w.getLast h) = true := by
  intro h ht
  have hmem : w.getLast h ∈ w := List.getLast_mem h
  unfold isTerminator at ht
  simp only [Bool.or_eq_true, decide_eq_true_eq] at ht
  rcases ht with ht | ht
  · exact hLF (ht ▸ hmem)
  · exact hCR (ht ▸ hmem)

/-- The filter on a list of words, each followed by the same run of terminators
and a line feed, prints the words of the wanted length. -/
theorem printed_words (wordLen : Nat) (hw : 1 ≤ wordLen) (t : List Byte)
    (ht : ∀ x ∈ t, isTerminator x = true) (words : List (List Byte))
    (hwords : ∀ w ∈ words, w.length ≤ 256 ∧ LF ∉ w ∧ CR ∉ w ∧ NUL ∉ w) :
    printed wordLen (words.map (fun w => w ++ (t ++ [LF]))).flatten =
      (words.filter (fun w => decide (w.length = wordLen))).map (fun w => w ++ [LF]) := by
  induction words with
  | nil => rfl
  | cons w words ih =>
    obtain ⟨hlen, hLF, hCR, hNUL⟩ := hwords w (List.mem_cons_self _ _)
    have ih' := ih (fun v hv => hwords v (List.mem_cons_of_mem _ hv))
    have hfile : ((w :: words).map (fun w => w ++ (t ++ [LF]))).flatten =
        (w ++ t) ++ LF :: (words.map (fun w => w ++ (t ++ [LF]))).flatten := by
      simp [List.append_assoc]
    have hall : ∀ x ∈ t ++ [LF], isTerminator x = true := by
      intro x hx
      rcases List.mem_append.mp hx with hx | hx
      · exact ht x hx
      · simp only [List.mem_singleton] at hx
        rw [hx]; rfl
    have hone := printed_word wordLen hw w (t ++ [LF]) hLF hNUL hlen
      (word_last_not_terminator w hLF hCR) hall
    rw [hfile, printed_append_line, List.append_assoc, hone, ih']
    by_cases hm : w.length = wordLen
    · simp [hm]
    · simp [hm]

theorem wordLine_ends_LF_only (wordLen : Nat) (l : List Byte) (h : IsWordLine wordLen l) :
    ∃ w : List Byte, l = w ++ [LF] ∧ w.getLast? ≠ some CR ∧ w.getLast? ≠ some LF := by
  obtain ⟨w, h1, -, -, -, h5, -⟩ := h
  refine ⟨w, h1, ?_, ?_⟩
  · intro hlast
    have hne : w ≠ [] := by
      intro e
      rw [e] at hlast
      simp at hlast
    apply h5 hne
    rw [List.getLast?_eq_getLast w hne] at hlast
    rw [Option.some.inj hlast]
    rfl
  · intro hlast
    have hne : w ≠ [] := by
      intro e
      rw [e] at hlast
      simp at hlast
    apply h5 hne
    rw [List.getLast?_eq_getLast w hne] at hlast
    rw [Option.some.inj hlast]
    rfl

/-- C11: for words of at most 255 bytes without `'\n'`, `'\r'` and NUL, and
`wordLen ≥ 1`, `WriteNewDictionary` produces the same output and the same count
for the file with CRLF line ends as for the file with LF line ends: the words
of length `wordLen`, each followed by LF; and every line of the output ends in
LF alone, the byte before it being neither `'\r'` nor `'\n'`. -/
theorem C11_crlf_as_lf (words : List (List Byte)) (wordLen : Nat) (hw : 1 ≤ wordLen)
    (hwords : ∀ w ∈ words, w.length ≤ 255 ∧ LF ∉ w ∧ CR ∉ w ∧ NUL ∉ w) :
    WriteNewDictionary (crlfFile words) wordLen = WriteNewDictionary (lfFile words) wordLen ∧
      (WriteNewDictionary (crlfFile words) wordLen).1 =
        lfFile (words.filter (fun w => decide (w.length = wordLen))) ∧
      ∀ l ∈ splitLines (WriteNewDictionary (crlfFile words) wordLen).1,
        ∃ w : List Byte, l = w ++ [LF] ∧ w.getLast? ≠ some CR ∧ w.getLast? ≠ some LF := by
  have hwords' : ∀ w ∈ words, w.length ≤ 256 ∧ LF ∉ w ∧ CR ∉ w ∧ NUL ∉ w := by
    intro w hmem
    obtain ⟨h1, h2⟩ := hwords w hmem
    exact ⟨by omega, h2⟩
  have hcr := printed_words wordLen hw [CR] (by intro x hx; simp at hx; rw [hx]; rfl)
    words hwords'
  have hlf := printed_words wordLen hw [] (by intro x hx; simp at hx) words hwords'
  have hcr' : printed wordLen (crlfFile words) =
      (words.filter (fun w => decide (w.length = wordLen))).map (fun w => w ++ [LF]) := hcr
  have hlf' : printed wordLen (lfFile words) =
      (words.filter (fun w => decide (w.length = wordLen))).map (fun w => w ++ [LF]) := hlf
  refine ⟨?_, ?_, ?_⟩
  · rw [WriteNewDictionary_eq, WriteNewDictionary_eq, hcr', hlf']
  · rw [WriteNewDictionary_eq, hcr']
    rfl
  · intro l hl
    rw [splitLines_output] at hl
    exact wordLine_ends_LF_only wordLen l (printed_wordLine wordLen _ l hl)

/-- C11, witness: the words `cat`, `elephant`, `dog` and `wordLen = 3`. -/
theorem C11_crlf_as_lf_witness :
    (1 ≤ 3 ∧
      ∀ w ∈ [[99, 97, 116], [101, 108, 101, 112, 104, 97, 110, 116], [100, 111, 103]],
        w.length ≤ 255 ∧ LF ∉ w ∧ CR ∉ w ∧ NUL ∉ w) ∧
    (WriteNewDictionary
        (crlfFile [[99, 97, 116], [101, 108, 101, 112, 104, 97, 110, 116], [100, 111, 103]]) 3 =
      WriteNewDictionary
        (lfFile [[99, 97, 116], [101, 108, 101, 112, 104, 97, 110, 116], [100, 111, 103]]) 3 ∧
      (WriteNewDictionary
        (crlfFile [[99, 97, 116], [101, 108, 101, 112, 104, 97, 110, 116], [100, 111, 103]]) 3).1 =
        lfFile (([[99, 97, 116], [101, 108, 101, 112, 104, 97, 110, 116], [100, 111, 103]] :
          List (List Byte)).filter (fun w => decide (w.length = 3))) ∧
      ∀ l ∈ splitLines (WriteNewDictionary
          (crlfFile [[99, 97, 116], [101, 108, 101, 112, 104, 97, 110, 116], [100, 111, 103]]) 3).1,
        ∃ w : List Byte, l = w ++ [LF] ∧ w.getLast? ≠ some CR ∧ w.getLast? ≠ some LF) :=
  ⟨by decide, C11_crlf_as_lf _ 3 (by decide) (by decide)⟩

/-! ## The output file of a successful run -/

theorem setFile_same (sameFile : CStr → CStr → Bool) (file : CStr → Option (List Byte))
    (p : CStr) (bytes : List Byte) : setFile sameFile file p bytes p = some bytes := by
  simp [setFile]

theorem setFile_other (sameFile : CStr → CStr → Bool) (file : CStr → Option (List Byte))
    (p q : CStr) (bytes : List Byte) (h : q ≠ p) (hs : sameFile q p = false) :
    setFile sameFile file p bytes q = file q := by
  simp [setFile, h, hs]

theorem setFile_setFile (sameFile : CStr → CStr → Bool) (file : CStr → Option (List Byte))
    (p : CStr) (a b : List Byte) :
    setFile sameFile (setFile sameFile file p a) p b = setFile sameFile file p b := by
  funext q
  by_cases h : q = p ∨ sameFile q p = true
  · simp only [setFile, h, if_true]
  · simp only [setFile, h, if_false]

/-- A run that returns 0 has truncated the output file, filtered what the input
stream delivered after the truncation, and left in the output file what was
stored of the bytes written. -/
theorem main_success (w : World) (argc : Int) (argv : List (Option CStr))
    (h : (main w argc argv).exit = 0) :
    ∃ input, w.file (deref (argAt argv ARG_INPATH)) = some input ∧
      (main w argc argv).file =
        setFile w.sameFile w.file (deref (argAt argv ARG_OUTPATH))
          (w.stored (WriteNewDictionary
            (if deref (argAt argv ARG_INPATH) = deref (argAt argv ARG_OUTPATH) ∨
                w.sameFile (deref (argAt argv ARG_INPATH)) (deref (argAt argv ARG_OUTPATH)) = true
              then [] else input)
            (parseWordLen w argv).1).1) := by
  obtain ⟨hv, hp1, hp2, hm, ⟨input, hf⟩, hwr⟩ := (main_exit_zero_iff w argc argv).mp h
  refine ⟨input, hf, ?_⟩
  rw [main_open w argc argv hv hp1 hp2]
  rcases OpenFileHandle_cases w (deref (argAt argv ARG_INPATH))
    (deref (argAt argv ARG_OUTPATH)) with
    ⟨hm', _⟩ | ⟨_, hf', _⟩ | ⟨_, _, hw', _⟩ | ⟨_, _, bytes, hf', ho⟩
  · rw [hm] at hm'; exact absurd hm' (by simp)
  · rw [hf] at hf'; exact Option.noConfusion hf'
  · rw [hwr] at hw'; exact absurd hw' (by simp)
  · rw [hf] at hf'
    have hb : input = bytes := Option.some.inj hf'
    subst hb
    rw [ho]
    simp only [setFile_same, List.nil_append]
    exact setFile_setFile _ _ _ _ _

theorem parseWordLen_congr (w1 w2 : World) (argv : List (Option CStr))
    (h : w1.ulongMax = w2.ulongMax) : parseWordLen w1 argv = parseWordLen w2 argv := by
  rw [parseWordLen_eq, parseWordLen_eq, h]

/-- The paths of a validated invocation are different strings. -/
theorem ValidateArgs_paths (argc : Int) (argv : List (Option CStr))
    (h : (ValidateArgs argc argv).1 = true) :
    deref (argAt argv ARG_INPATH) ≠ deref (argAt argv ARG_OUTPATH) := by
  obtain ⟨-, ⟨i, hi, -⟩, ⟨o, ho, -⟩, hne, -⟩ := (ValidateArgs_true argc argv).mp h
  rw [hi, ho] at hne ⊢
  intro e
  apply hne
  have : i = o := e
  rw [this]

/-- The output file of a successful run whose output path does not name the
input file and whose writes all succeed. -/
theorem main_success_output (w : World) (argc : Int) (argv : List (Option CStr))
    (input : List Byte)
    (hf : w.file (deref (argAt argv ARG_INPATH)) = some input)
    (h : (main w argc argv).exit = 0)
    (ha : w.sameFile (deref (argAt argv ARG_INPATH)) (deref (argAt argv ARG_OUTPATH)) = false)
    (hs : w.stored (WriteNewDictionary input (parseWordLen w argv).1).1 =
      (WriteNewDictionary input (parseWordLen w argv).1).1) :
    (main w argc argv).file =
      setFile w.sameFile w.file (deref (argAt argv ARG_OUTPATH))
        (WriteNewDictionary input (parseWordLen w argv).1).1 := by
  obtain ⟨input', hf', hr⟩ := main_success w argc argv h
  have hsame : input' = input := by
    rw [hf] at hf'
    exact (Option.some.inj hf').symm
  subst hsame
  obtain ⟨hv, -⟩ := (main_exit_zero_iff w argc argv).mp h
  have hne := ValidateArgs_paths argc argv hv
  rw [hr]
  have hcond : ¬ (deref (argAt argv ARG_INPATH) = deref (argAt argv ARG_OUTPATH) ∨
      w.sameFile (deref (argAt argv ARG_INPATH)) (deref (argAt argv ARG_OUTPATH)) = true) := by
    rw [ha]
    simp [hne]
  rw [if_neg hcond, hs]

/-- C12, as stated, fails: the runs `redict in out 3` and `redict ./in in 3`,
where `./in` names the file `in`, have the same input content and the same
length and both return 0; the first leaves `"cat\ndog\n"` in its output file,
the second has truncated its own input before the first read, prints
`Wrote 0 words` and leaves its output file empty. -/
theorem C12_counterexample :
    sampleWorld.file ['i', 'n'] = aliasWorld.file ['.', '/', 'i', 'n'] ∧
      parseWordLen sampleWorld (sampleArgs ['3']) = (3, []) ∧
      parseWordLen aliasWorld
        [some ['r', 'e', 'd', 'i', 'c', 't'], some ['.', '/', 'i', 'n'], some ['i', 'n'],
          some ['3']] = (3, []) ∧
      (main sampleWorld 4 (sampleArgs ['3'])).exit = 0 ∧
      (main aliasWorld 4
        [some ['r', 'e', 'd', 'i', 'c', 't'], some ['.', '/', 'i', 'n'], some ['i', 'n'],
          some ['3']]).exit = 0 ∧
      (main sampleWorld 4 (sampleArgs ['3'])).file ['o', 'u', 't'] =
        some [99, 97, 116, 10, 100, 111, 103, 10] ∧
      (main aliasWorld 4
        [some ['r', 'e', 'd', 'i', 'c', 't'], some ['.', '/', 'i', 'n'], some ['i', 'n'],
          some ['3']]).file ['i', 'n'] = some [] ∧
      (main aliasWorld 4
        [some ['r', 'e', 'd', 'i', 'c', 't'], some ['.', '/', 'i', 'n'], some ['i', 'n'],
          some ['3']]).events =
        [Event.fopen ['.', '/', 'i', 'n'] false true, Event.fopen ['i', 'n'] true true,
          Event.stdout (Msg.wrote 0 3), Event.fclose ['.', '/', 'i', 'n'],
          Event.fclose ['i', 'n']] := by
  decide

/-- C12, amended: for runs that return 0, in which the output path does not
name the input file and every write to the output succeeds, the final content
of the output file is the output of `WriteNewDictionary` on the input content
for the parsed `wordLen`, whatever the output file held before (it is truncated
on open, and the bytes written follow the empty file).  So two such runs with
the same arguments, on the same platform and the same input content, leave the
same bytes in the output file, whatever else differs; and a second run after
the first returns 0 again and leaves the file system as the first run left
it. -/
theorem C12_output_determined (w1 w2 : World) (argc : Int) (argv : List (Option CStr))
    (input : List Byte)
    (hul : w1.ulongMax = w2.ulongMax)
    (hf1 : w1.file (deref (argAt argv ARG_INPATH)) = some input)
    (hf2 : w2.file (deref (argAt argv ARG_INPATH)) = some input)
    (h1 : (main w1 argc argv).exit = 0) (h2 : (main w2 argc argv).exit = 0)
    (ha1 : w1.sameFile (deref (argAt argv ARG_INPATH)) (deref (argAt argv ARG_OUTPATH)) = false)
    (ha2 : w2.sameFile (deref (argAt argv ARG_INPATH)) (deref (argAt argv ARG_OUTPATH)) = false)
    (hs1 : w1.stored (WriteNewDictionary input (parseWordLen w1 argv).1).1 =
      (WriteNewDictionary input (parseWordLen w1 argv).1).1)
    (hs2 : w2.stored (WriteNewDictionary input (parseWordLen w1 argv).1).1 =
      (WriteNewDictionary input (parseWordLen w1 argv).1).1) :
    (main w1 argc argv).file (deref (argAt argv ARG_OUTPATH)) =
        some (WriteNewDictionary input (parseWordLen w1 argv).1).1 ∧
      (main w2 argc argv).file (deref (argAt argv ARG_OUTPATH)) =
        some (WriteNewDictionary input (parseWordLen w1 argv).1).1 ∧
      (main { w1 with file := (main w1 argc argv).file } argc argv).exit = 0 ∧
      (main { w1 with file := (main w1 argc argv).file } argc argv).file =
        (main w1 argc argv).file := by
  have hr1 := main_success_output w1 argc argv input hf1 h1 ha1 hs1
  have hpw := parseWordLen_congr w1 w2 argv hul
  have hr2 := main_success_output w2 argc argv input hf2 h2 ha2 (by rw [← hpw]; exact hs2)
  obtain ⟨hv, hp1, hp2, hm, -, hwr⟩ := (main_exit_zero_iff w1 argc argv).mp h1
  have hne := ValidateArgs_paths argc argv hv
  have hin : (main w1 argc argv).file (deref (argAt argv ARG_INPATH)) = some input := by
    rw [hr1, setFile_other _ _ _ _ _ hne ha1, hf1]
  have hexit : (main { w1 with file := (main w1 argc argv).file } argc argv).exit = 0 := by
    rw [main_exit_zero_iff]
    exact ⟨hv, hp1, hp2, hm, ⟨input, hin⟩, hwr⟩
  refine ⟨?_, ?_, hexit, ?_⟩
  · rw [hr1, setFile_same]
  · rw [hr2, setFile_same, hpw]
  · have hr3 := main_success_output { w1 with file := (main w1 argc argv).file } argc argv
      input hin hexit ha1 hs1
    rw [hr3]
    show setFile w1.sameFile (main w1 argc argv).file _ _ = _
    rw [hr1]
    exact setFile_setFile _ _ _ _ _

/-- C12, witness: `redict in out 3` where `out` does not exist and where `out`
holds `"x\n"`. -/
theorem C12_output_determined_witness :
    (sampleWorld.ulongMax = sampleWorldAfter.ulongMax ∧
      sampleWorld.file (deref (argAt (sampleArgs ['3']) ARG_INPATH)) =
        some [99, 97, 116, 10, 100, 111, 103, 10, 101, 108, 101, 112, 104, 97, 110, 116, 10] ∧
      sampleWorldAfter.file (deref (argAt (sampleArgs ['3']) ARG_INPATH)) =
        some [99, 97, 116, 10, 100, 111, 103, 10, 101, 108, 101, 112, 104, 97, 110, 116, 10] ∧
      (main sampleWorld 4 (sampleArgs ['3'])).exit = 0 ∧
      (main sampleWorldAfter 4 (sampleArgs ['3'])).exit = 0 ∧
      sampleWorld.sameFile (deref (argAt (sampleArgs ['3']) ARG_INPATH))
        (deref (argAt (sampleArgs ['3']) ARG_OUTPATH)) = false ∧
      sampleWorldAfter.sameFile (deref (argAt (sampleArgs ['3']) ARG_INPATH))
        (deref (argAt (sampleArgs ['3']) ARG_OUTPATH)) = false ∧
      sampleWorld.stored (WriteNewDictionary
          [99, 97, 116, 10, 100, 111, 103, 10, 101, 108, 101, 112, 104, 97, 110, 116, 10]
          (parseWordLen sampleWorld (sampleArgs ['3'])).1).1 =
        (WriteNewDictionary
          [99, 97, 116, 10, 100, 111, 103, 10, 101, 108, 101, 112, 104, 97, 110, 116, 10]
          (parseWordLen sampleWorld (sampleArgs ['3'])).1).1 ∧
      sampleWorldAfter.stored (WriteNewDictionary
          [99, 97, 116, 10, 100, 111, 103, 10, 101, 108, 101, 112, 104, 97, 110, 116, 10]
          (parseWordLen sampleWorld (sampleArgs ['3'])).1).1 =
        (WriteNewDictionary
          [99, 97, 116, 10, 100, 111, 103, 10, 101, 108, 101, 112, 104, 97, 110, 116, 10]
          (parseWordLen sampleWorld (sampleArgs ['3'])).1).1 ∧
      sampleWorldAfter.file ['o', 'u', 't'] = some [120, 10]) ∧
    ((main sampleWorld 4 (sampleArgs ['3'])).file (deref (argAt (sampleArgs ['3']) ARG_OUTPATH)) =
        some (WriteNewDictionary
          [99, 97, 116, 10, 100, 111, 103, 10, 101, 108, 101, 112, 104, 97, 110, 116, 10]
          (parseWordLen sampleWorld (sampleArgs ['3'])).1).1 ∧
      (main sampleWorldAfter 4 (sampleArgs ['3'])).file
          (deref (argAt (sampleArgs ['3']) ARG_OUTPATH)) =
        some (WriteNewDictionary
          [99, 97, 116, 10, 100, 111, 103, 10, 101, 108, 101, 112, 104, 97, 110, 116, 10]
          (parseWordLen sampleWorld (sampleArgs ['3'])).1).1 ∧
      (main { sampleWorld with file := (main sampleWorld 4 (sampleArgs ['3'])).file } 4
        (sampleArgs ['3'])).exit = 0 ∧
      (main { sampleWorld with file := (main sampleWorld 4 (sampleArgs ['3'])).file } 4
        (sampleArgs ['3'])).file = (main sampleWorld 4 (sampleArgs ['3'])).file) :=
  ⟨by decide, C12_output_determined sampleWorld sampleWorldAfter 4 (sampleArgs ['3'])
    [99, 97, 116, 10, 100, 111, 103, 10, 101, 108, 101, 112, 104, 97, 110, 116, 10]
    (by decide) (by decide) (by decide) (by decide) (by decide) (by decide) (by decide) rfl rfl⟩

/-! ## Lines that fit one read -/

theorem fgets_of_ne_nil (fp : List Byte) (h : fp ≠ []) :
    fgets BUFFER_SIZE fp = some ((fgetsRead 256 fp).1 ++ [NUL], (fgetsRead 256 fp).2) := by
  cases fp with
  | nil => exact absurd rfl h
  | cons c s => exact fgets_cons c s

theorem fgetsRead_nil (k : Nat) : fgetsRead k [] = ([], []) := by
  cases k <;> rfl

/-- A terminated line of at most 256 bytes is taken by one read. -/
theorem fgetsRead_terminated (body rest : List Byte) (hLF : LF ∉ body)
    (hlen : body.length + 1 ≤ 256) :
    fgetsRead 256 (body ++ LF :: rest) = (body ++ [LF], rest) := by
  rw [fgetsRead_word body (LF :: rest) hLF 256 (by omega)]
  obtain ⟨k, hk⟩ : ∃ k, 256 - body.length = k + 1 := ⟨255 - body.length, by omega⟩
  rw [hk]
  simp [fgetsRead]

/-- An unterminated line of at most 256 bytes at the end of the input is taken
by one read. -/
theorem fgetsRead_unterminated (l : List Byte) (hLF : LF ∉ l) (hlen : l.length ≤ 256) :
    fgetsRead 256 l = (l, []) := by
  have := fgetsRead_word l [] hLF 256 hlen
  rw [List.append_nil, fgetsRead_nil, List.append_nil] at this
  exact this

/-- C13, as stated, fails: the line of 256 bytes `a` and a line feed has 257
bytes, and the first `fgets` stores only the 256 bytes `a`; the line feed is
left to a second read. -/
theorem C13_counterexample :
    (List.replicate 256 97 ++ [LF]).length = 257 ∧
      fgets BUFFER_SIZE (List.replicate 256 97 ++ [LF]) =
        some (List.replicate 256 97 ++ [NUL], [LF]) ∧
      reads (List.replicate 256 97 ++ [LF]) = [List.replicate 256 97, [LF]] := by
  set_option maxRecDepth 100000 in decide

/-- C13, amended: a physical line is taken into the buffer by a single read
exactly when its raw length, terminator included, is at most 256 bytes; this
holds for a line that ends in a line feed, whatever follows it, and for a last
line without line feed. -/
theorem C13_single_read (body rest : List Byte) (hLF : LF ∉ body) :
    (fgets BUFFER_SIZE (body ++ LF :: rest) = some ((body ++ [LF]) ++ [NUL], rest) ↔
      (body ++ [LF]).length ≤ 256) ∧
    (fgets BUFFER_SIZE body = some (body ++ [NUL], []) ↔ (body ≠ [] ∧ body.length ≤ 256)) := by
  constructor
  · rw [fgets_of_ne_nil _ (by simp)]
    constructor
    · intro h
      have h1 := (Prod.mk.inj (Option.some.inj h)).1
      have h2 : (fgetsRead 256 (body ++ LF :: rest)).1 = body ++ [LF] :=
        List.append_cancel_right h1
      rw [← h2]
      exact fgetsRead_length_le 256 _
    · intro h
      simp only [List.length_append, List.length_singleton] at h
      rw [fgetsRead_terminated body rest hLF h]
  · constructor
    · intro h
      have hne : body ≠ [] := by
        intro e
        rw [e] at h
        exact Option.noConfusion h
      rw [fgets_of_ne_nil _ hne] at h
      have h1 := (Prod.mk.inj (Option.some.inj h)).1
      have h2 : (fgetsRead 256 body).1 = body := List.append_cancel_right h1
      refine ⟨hne, ?_⟩
      rw [← h2]
      exact fgetsRead_length_le 256 _
    · rintro ⟨hne, h⟩
      rw [fgets_of_ne_nil _ hne, fgetsRead_unterminated body hLF h]

/-- C13, witness: the line `"cat\n"` followed by `"dog\n"`. -/
theorem C13_single_read_witness :
    LF ∉ [99, 97, 116] ∧
    ((fgets BUFFER_SIZE ([99, 97, 116] ++ LF :: [100, 111, 103, 10]) =
          some (([99, 97, 116] ++ [LF]) ++ [NUL], [100, 111, 103, 10]) ↔
        (([99, 97, 116] : List Byte) ++ [LF]).length ≤ 256) ∧
      (fgets BUFFER_SIZE [99, 97, 116] = some ([99, 97, 116] ++ [NUL], []) ↔
        (([99, 97, 116] : List Byte) ≠ [] ∧ ([99, 97, 116] : List Byte).length ≤ 256))) :=
  ⟨by decide, C13_single_read [99, 97, 116] [100, 111, 103, 10] (by decide)⟩

/-! ## The stripping loop on a chunk -/

/-- The stripping loop on the buffer of a chunk without NUL. -/
theorem stripLoop_chunk (chunk : List Byte) (hNUL : NUL ∉ chunk) (hlen : chunk.length < 2 ^ 32) :
    cstring (stripLoop (u32 (strlen (chunk ++ [NUL]))) (chunk ++ [NUL])).1 =
        stripTerminators chunk ∧
      (stripLoop (u32 (strlen (chunk ++ [NUL]))) (chunk ++ [NUL])).2 =
        (stripTerminators chunk).length := by
  have hs : strlen (chunk ++ [NUL]) = chunk.length := by
    unfold strlen
    rw [takeWhile_nul_append chunk [] (fun x hx e => hNUL (e ▸ hx))]
  have hu : u32 chunk.length = chunk.length := by
    unfold u32
    exact Nat.mod_eq_of_lt hlen
  obtain ⟨q', hq'⟩ := stripLoop_spec chunk []
  rw [hs, hu, hq']
  refine ⟨?_, rfl⟩
  unfold cstring
  exact takeWhile_nul_append _ _
    (stripTerminators_nul_free chunk (fun x hx e => hNUL (e ▸ hx)))

/-- No prefix that does not end in a terminator is longer than the stripped
sequence. -/
theorem stripTerminators_longest (l p : List Byte) (hp : p.IsPrefix l)
    (hlast : ∀ h : p ≠ [], ¬ isTerminator (p.getLast h) = true) :
    p.length ≤ (stripTerminators l).length := by
  obtain ⟨t, ht, hall⟩ := stripTerminators_split l
  rcases List.prefix_or_prefix_of_prefix hp (stripTerminators_pre l) with h | h
  · exact h.length_le
  · obtain ⟨u, hu⟩ := h
    by_cases hnil : u = []
    · rw [← hu, hnil, List.append_nil]
    · exfalso
      have hpne : p ≠ [] := by
        rw [← hu]
        simp [hnil]
      have hut : u.IsPrefix t := by
        rw [ht, ← hu] at hp
        exact (List.prefix_append_right_inj _).mp hp
      apply hlast hpne
      have hl : p.getLast hpne = u.getLast hnil := by
        subst hu
        exact List.getLast_append_of_ne_nil hnil
      rw [hl]
      exact hall _ (hut.subset (List.getLast_mem hnil))

/-- C14: for a chunk without NUL that one read has stored (at most 256 bytes),
the stripping loop leaves in the buffer the chunk without its trailing run of
`'\n'`/`'\r'` bytes, and `len` is its length: the chunk is the result followed
by terminators only, the result is empty or ends in a byte that is no
terminator, and no longer prefix of the chunk ends in a byte that is no
terminator.  Bytes `'\r'` before the trailing run are part of the result. -/
theorem C14_stripping (chunk : List Byte) (hNUL : NUL ∉ chunk) (hlen : chunk.length ≤ 256) :
    cstring (stripLoop (u32 (strlen (chunk ++ [NUL]))) (chunk ++ [NUL])).1 =
        stripTerminators chunk ∧
      (stripLoop (u32 (strlen (chunk ++ [NUL]))) (chunk ++ [NUL])).2 =
        (stripTerminators chunk).length ∧
      (∃ t, chunk = stripTerminators chunk ++ t ∧ ∀ x ∈ t, x = LF ∨ x = CR) ∧
      (∀ h : stripTerminators chunk ≠ [],
        (stripTerminators chunk).getLast h ≠ LF ∧ (stripTerminators chunk).getLast h ≠ CR) ∧
      (∀ p : List Byte, p.IsPrefix chunk →
        (∀ h : p ≠ [], p.getLast h ≠ LF ∧ p.getLast h ≠ CR) →
        p.length ≤ (stripTerminators chunk).length) := by
  have h2 : (256 : Nat) < 2 ^ 32 := by norm_num
  obtain ⟨h1, h1'⟩ := stripLoop_chunk chunk hNUL (by omega)
  refine ⟨h1, h1', ?_, ?_, ?_⟩
  · obtain ⟨t, ht, hall⟩ := stripTerminators_split chunk
    refine ⟨t, ht, ?_⟩
    intro x hx
    have := hall x hx
    unfold isTerminator at this
    simpa using this
  · intro h
    have := stripTerminators_last chunk h
    unfold isTerminator at this
    simpa using this
  · intro p hp hlast
    apply stripTerminators_longest chunk p hp
    intro h
    have := hlast h
    unfold isTerminator
    simp [this.1, this.2]

/-- C14, witness: the chunk `"a\rb\r\n\r\n"` is stripped to `"a\rb"`. -/
theorem C14_stripping_witness :
    (NUL ∉ [97, 13, 98, 13, 10, 13, 10] ∧ ([97, 13, 98, 13, 10, 13, 10] : List Byte).length ≤ 256) ∧
    stripTerminators [97, 13, 98, 13, 10, 13, 10] = [97, 13, 98] ∧
    (cstring (stripLoop (u32 (strlen ([97, 13, 98, 13, 10, 13, 10] ++ [NUL])))
          ([97, 13, 98, 13, 10, 13, 10] ++ [NUL])).1 =
        stripTerminators [97, 13, 98, 13, 10, 13, 10] ∧
      (stripLoop (u32 (strlen ([97, 13, 98, 13, 10, 13, 10] ++ [NUL])))
          ([97, 13, 98, 13, 10, 13, 10] ++ [NUL])).2 =
        (stripTerminators [97, 13, 98, 13, 10, 13, 10]).length ∧
      (∃ t, [97, 13, 98, 13, 10, 13, 10] = stripTerminators [97, 13, 98, 13, 10, 13, 10] ++ t ∧
        ∀ x ∈ t, x = LF ∨ x = CR) ∧
      (∀ h : stripTerminators [97, 13, 98, 13, 10, 13, 10] ≠ [],
        (stripTerminators [97, 13, 98, 13, 10, 13, 10]).getLast h ≠ LF ∧
          (stripTerminators [97, 13, 98, 13, 10, 13, 10]).getLast h ≠ CR) ∧
      (∀ p : List Byte, p.IsPrefix [97, 13, 98, 13, 10, 13, 10] →
        (∀ h : p ≠ [], p.getLast h ≠ LF ∧ p.getLast h ≠ CR) →
        p.length ≤ (stripTerminators [97, 13, 98, 13, 10, 13, 10]).length)) :=
  ⟨by decide, by decide, C14_stripping [97, 13, 98, 13, 10, 13, 10] (by decide) (by decide)⟩

/-! ## The filter as a function on file contents -/

/-- C15: for an input without NUL in which every line has at most 256 bytes
after stripping trailing `'\n'`/`'\r'` bytes, and `wordLen ≥ 1`, the output of
`WriteNewDictionary` is the concatenation, in input order and with duplicates
kept, of `w` followed by `'\n'` for each input line whose stripped content `w`
has length `wordLen`, and the returned count is the number of such lines modulo
`2 ^ 32`. -/
theorem C15_filter_output (input : List Byte) (wordLen : Nat) (hw : 1 ≤ wordLen)
    (hNUL : NUL ∉ input)
    (hlen : ∀ l ∈ splitLines input, (stripTerminators l).length ≤ 256) :
    (WriteNewDictionary input wordLen).1 =
        (((splitLines input).filter
          (fun l => decide ((stripTerminators l).length = wordLen))).map
          (fun l => stripTerminators l ++ [LF])).flatten ∧
      (WriteNewDictionary input wordLen).2 = matchingLines input wordLen % 2 ^ 32 := by
  rw [WriteNewDictionary_eq, printed_lines wordLen hw input hNUL hlen, List.length_map]
  exact ⟨rfl, rfl⟩

/-- C15, witness: the input `"cat\r\r\ndog\nab\n\ncat"` with `wordLen = 3`: a
line with several terminators, a duplicate, an empty line and a last line
without terminator. -/
theorem C15_filter_output_witness :
    (1 ≤ 3 ∧
      NUL ∉ [99, 97, 116, 13, 13, 10, 100, 111, 103, 10, 97, 98, 10, 10, 99, 97, 116] ∧
      ∀ l ∈ splitLines [99, 97, 116, 13, 13, 10, 100, 111, 103, 10, 97, 98, 10, 10, 99, 97, 116],
        (stripTerminators l).length ≤ 256) ∧
    WriteNewDictionary [99, 97, 116, 13, 13, 10, 100, 111, 103, 10, 97, 98, 10, 10, 99, 97, 116] 3 =
      ([99, 97, 116, 10, 100, 111, 103, 10, 99, 97, 116, 10], 3) ∧
    ((WriteNewDictionary
        [99, 97, 116, 13, 13, 10, 100, 111, 103, 10, 97, 98, 10, 10, 99, 97, 116] 3).1 =
        (((splitLines
            [99, 97, 116, 13, 13, 10, 100, 111, 103, 10, 97, 98, 10, 10, 99, 97, 116]).filter
          (fun l => decide ((stripTerminators l).length = 3))).map
          (fun l => stripTerminators l ++ [LF])).flatten ∧
      (WriteNewDictionary
        [99, 97, 116, 13, 13, 10, 100, 111, 103, 10, 97, 98, 10, 10, 99, 97, 116] 3).2 =
        matchingLines
          [99, 97, 116, 13, 13, 10, 100, 111, 103, 10, 97, 98, 10, 10, 99, 97, 116] 3 % 2 ^ 32) :=
  ⟨by decide, by decide, C15_filter_output _ 3 (by decide) (by decide) (by decide)⟩

/-- The filter prints every line of a file of word lines. -/
theorem printed_wordLines (wordLen : Nat) (hw : 1 ≤ wordLen) (L : List (List Byte))
    (hL : ∀ l ∈ L, IsWordLine wordLen l) : printed wordLen L.flatten = L := by
  induction L with
  | nil => rfl
  | cons l L ih =>
    obtain ⟨w, rfl, hlen, hLF, hNUL, hlast, hle⟩ := hL l (List.mem_cons_self _ _)
    have ih' := ih (fun l hl => hL l (List.mem_cons_of_mem _ hl))
    have hone := printed_word wordLen hw w [LF] hLF hNUL hle hlast
      (by intro x hx; simp at hx; rw [hx]; rfl)
    rw [List.flatten_cons, List.append_assoc, List.singleton_append, printed_append_line,
      hone, ih', if_pos hlen]
    rfl

/-- C16: for `wordLen ≥ 1`, `WriteNewDictionary` on its own output reproduces
that output byte for byte and returns the same count. -/
theorem C16_idempotent (input : List Byte) (wordLen : Nat) (hw : 1 ≤ wordLen) :
    WriteNewDictionary (WriteNewDictionary input wordLen).1 wordLen =
      WriteNewDictionary input wordLen := by
  rw [WriteNewDictionary_eq input wordLen]
  show WriteNewDictionary (printed wordLen input).flatten wordLen = _
  rw [WriteNewDictionary_eq,
    printed_wordLines wordLen hw _ (printed_wordLine wordLen input)]

/-- C16, witness: the input `"cat\r\ndog\nelephant\nab"` with `wordLen = 3`. -/
theorem C16_idempotent_witness :
    1 ≤ 3 ∧
    WriteNewDictionary
        [99, 97, 116, 13, 10, 100, 111, 103, 10, 101, 108, 101, 112, 104, 97, 110, 116, 10, 97, 98]
        3 = ([99, 97, 116, 10, 100, 111, 103, 10], 2) ∧
    WriteNewDictionary (WriteNewDictionary
        [99, 97, 116, 13, 10, 100, 111, 103, 10, 101, 108, 101, 112, 104, 97, 110, 116, 10, 97, 98]
        3).1 3 =
      WriteNewDictionary
        [99, 97, 116, 13, 10, 100, 111, 103, 10, 101, 108, 101, 112, 104, 97, 110, 116, 10, 97, 98]
        3 :=
  ⟨by decide, by decide, C16_idempotent _ 3 (by decide)⟩

/-- The printed lines of a concatenation whose first part is empty or ends in a
line feed. -/
theorem printed_append (wordLen : Nat) (a b : List Byte)
    (ha : a = [] ∨ ∃ a', a = a' ++ [LF]) :
    printed wordLen (a ++ b) = printed wordLen a ++ printed wordLen b := by
  rcases ha with ha | ⟨a', ha⟩
  · rw [ha, List.nil_append, printed_nil, List.nil_append]
  · rw [ha, List.append_assoc, List.singleton_append, printed_append_line]

/-- C17: when `a` is empty or ends in `'\n'`, the output of `WriteNewDictionary`
on `a ++ b` is the output on `a` followed by the output on `b`, and the
returned count is the sum of the two counts modulo `2 ^ 32`. -/
theorem C17_concatenation (a b : List Byte) (wordLen : Nat)
    (ha : a = [] ∨ ∃ a', a = a' ++ [LF]) :
    (WriteNewDictionary (a ++ b) wordLen).1 =
        (WriteNewDictionary a wordLen).1 ++ (WriteNewDictionary b wordLen).1 ∧
      (WriteNewDictionary (a ++ b) wordLen).2 =
        ((WriteNewDictionary a wordLen).2 + (WriteNewDictionary b wordLen).2) % 2 ^ 32 := by
  rw [WriteNewDictionary_eq, WriteNewDictionary_eq, WriteNewDictionary_eq,
    printed_append wordLen a b ha]
  refine ⟨List.flatten_append _ _, ?_⟩
  show u32 _ = (u32 _ + u32 _) % 2 ^ 32
  unfold u32
  rw [List.length_append, Nat.add_mod]

/-- C17, witness: `a = "cat\nab\n"` and `b = "dog\r\nx"` with `wordLen = 3`. -/
theorem C17_concatenation_witness :
    (([99, 97, 116, 10, 97, 98, 10] : List Byte) = [] ∨
      ∃ a', ([99, 97, 116, 10, 97, 98, 10] : List Byte) = a' ++ [LF]) ∧
    ((WriteNewDictionary ([99, 97, 116, 10, 97, 98, 10] ++ [100, 111, 103, 13, 10, 120]) 3).1 =
        (WriteNewDictionary [99, 97, 116, 10, 97, 98, 10] 3).1 ++
          (WriteNewDictionary [100, 111, 103, 13, 10, 120] 3).1 ∧
      (WriteNewDictionary ([99, 97, 116, 10, 97, 98, 10] ++ [100, 111, 103, 13, 10, 120]) 3).2 =
        ((WriteNewDictionary [99, 97, 116, 10, 97, 98, 10] 3).2 +
          (WriteNewDictionary [100, 111, 103, 13, 10, 120] 3).2) % 2 ^ 32) :=
  ⟨Or.inr ⟨[99, 97, 116, 10, 97, 98], rfl⟩,
    C17_concatenation [99, 97, 116, 10, 97, 98, 10] [100, 111, 103, 13, 10, 120] 3
      (Or.inr ⟨[99, 97, 116, 10, 97, 98], rfl⟩)⟩

/-! ## A line with a NUL byte -/

/-- The printed lines of an input around a line that fits one read. -/
theorem printed_line_in_context (wordLen : Nat) (a l b : List Byte)
    (ha : a = [] ∨ ∃ a', a = a' ++ [LF]) (hl : l.length ≤ 256)
    (hline : (∃ body, l = body ++ [LF] ∧ LF ∉ body) ∨ (l ≠ [] ∧ LF ∉ l ∧ b = [])) :
    printed wordLen (a ++ l ++ b) =
      printed wordLen a ++ chunkLines wordLen l ++ printed wordLen b := by
  rw [List.append_assoc, printed_append wordLen a (l ++ b) ha, List.append_assoc]
  congr 1
  rcases hline with ⟨body, hbody, hLF⟩ | ⟨hne, hLF, hb⟩
  · subst hbody
    simp only [List.length_append, List.length_singleton] at hl
    rw [printed_append wordLen (body ++ [LF]) b (Or.inr ⟨body, rfl⟩)]
    congr 1
    rw [printed_of_ne_nil wordLen (body ++ [LF]) (by simp)]
    have := fgetsRead_terminated body [] hLF hl
    rw [this]
    simp only [printed_nil, List.append_nil]
  · subst hb
    rw [List.append_nil, printed_nil, List.append_nil, printed_of_ne_nil wordLen l hne,
      fgetsRead_unterminated l hLF hl]
    simp only [printed_nil, List.append_nil]

/-- C18: a line of at most 256 bytes that holds a NUL byte, `pre` being its
bytes before the first NUL, standing after a part `a` of the input that is
empty or ends in `'\n'` and before the rest `b` (the line ends in its only
`'\n'`, or is the unterminated end of the input).  The line is written exactly
when `pre` without its trailing `'\n'`/`'\r'` bytes has length `wordLen`, what
is written is that stripped prefix and a `'\n'`, and the bytes after the NUL
are dropped; the count grows by one exactly in that case. -/
theorem C18_line_with_nul (a pre post b : List Byte) (wordLen : Nat)
    (ha : a = [] ∨ ∃ a', a = a' ++ [LF])
    (hpre : NUL ∉ pre)
    (hl : (pre ++ NUL :: post).length ≤ 256)
    (hline : (∃ body, pre ++ NUL :: post = body ++ [LF] ∧ LF ∉ body) ∨
      (LF ∉ pre ++ NUL :: post ∧ b = [])) :
    (WriteNewDictionary (a ++ (pre ++ NUL :: post) ++ b) wordLen).1 =
        (WriteNewDictionary a wordLen).1 ++
          (if (stripTerminators pre).length = wordLen then stripTerminators pre ++ [LF] else []) ++
          (WriteNewDictionary b wordLen).1 ∧
      (WriteNewDictionary (a ++ (pre ++ NUL :: post) ++ b) wordLen).2 =
        ((WriteNewDictionary a wordLen).2 +
          (if (stripTerminators pre).length = wordLen then 1 else 0) +
          (WriteNewDictionary b wordLen).2) % 2 ^ 32 := by
  have hline' : (∃ body, pre ++ NUL :: post = body ++ [LF] ∧ LF ∉ body) ∨
      (pre ++ NUL :: post ≠ [] ∧ LF ∉ pre ++ NUL :: post ∧ b = []) := by
    rcases hline with h | ⟨h1, h2⟩
    · exact Or.inl h
    · exact Or.inr ⟨by simp, h1, h2⟩
  have hword : chunkWord (pre ++ NUL :: post) = stripTerminators pre := by
    unfold chunkWord cstring
    rw [takeWhile_nul_append pre post (fun x hx e => hpre (e ▸ hx))]
  rw [WriteNewDictionary_eq, WriteNewDictionary_eq, WriteNewDictionary_eq,
    printed_line_in_context wordLen a (pre ++ NUL :: post) b ha hl hline']
  unfold chunkLines
  rw [hword]
  by_cases hm : (stripTerminators pre).length = wordLen
  · simp only [hm, if_true, List.flatten_append, List.flatten_cons, List.flatten_nil,
      List.append_nil, List.length_append, List.length_singleton, true_and]
    show u32 _ = (u32 _ + 1 + u32 _) % 2 ^ 32
    unfold u32
    omega
  · simp only [hm, if_false, List.flatten_append, List.flatten_nil, List.append_nil,
      List.length_append, List.length_nil, Nat.add_zero, true_and]
    show u32 _ = (u32 _ + u32 _) % 2 ^ 32
    unfold u32
    omega

/-- C18, witness: the line `"ab\0cd\n"` between `"xy\n"` and `"pq\n"` with
`wordLen = 2`; the output is `"xy\nab\npq\n"`. -/
theorem C18_line_with_nul_witness :
    ((([120, 121, 10] : List Byte) = [] ∨ ∃ a', ([120, 121, 10] : List Byte) = a' ++ [LF]) ∧
      NUL ∉ [97, 98] ∧
      (([97, 98] : List Byte) ++ NUL :: [99, 100, 10]).length ≤ 256 ∧
      ((∃ body, ([97, 98] : List Byte) ++ NUL :: [99, 100, 10] = body ++ [LF] ∧ LF ∉ body) ∨
        (LF ∉ ([97, 98] : List Byte) ++ NUL :: [99, 100, 10] ∧
          ([112, 113, 10] : List Byte) = []))) ∧
    WriteNewDictionary ([120, 121, 10] ++ ([97, 98] ++ NUL :: [99, 100, 10]) ++ [112, 113, 10]) 2 =
      ([120, 121, 10, 97, 98, 10, 112, 113, 10], 3) ∧
    ((WriteNewDictionary
        ([120, 121, 10] ++ ([97, 98] ++ NUL :: [99, 100, 10]) ++ [112, 113, 10]) 2).1 =
        (WriteNewDictionary [120, 121, 10] 2).1 ++
          (if (stripTerminators [97, 98]).length = 2 then stripTerminators [97, 98] ++ [LF]
            else []) ++
          (WriteNewDictionary [112, 113, 10] 2).1 ∧
      (WriteNewDictionary
        ([120, 121, 10] ++ ([97, 98] ++ NUL :: [99, 100, 10]) ++ [112, 113, 10]) 2).2 =
        ((WriteNewDictionary [120, 121, 10] 2).2 +
          (if (stripTerminators [97, 98]).length = 2 then 1 else 0) +
          (WriteNewDictionary [112, 113, 10] 2).2) % 2 ^ 32) :=
  ⟨⟨Or.inr ⟨[120, 121], rfl⟩, by decide, by decide,
      Or.inl ⟨[97, 98, 0, 99, 100], rfl, by decide⟩⟩,
    by decide,
    C18_line_with_nul [120, 121, 10] [97, 98] [99, 100, 10] [112, 113, 10] 2
      (Or.inr ⟨[120, 121], rfl⟩) (by decide) (by decide)
      (Or.inl ⟨[97, 98, 0, 99, 100], rfl, by decide⟩)⟩

/-! ## The reads of the loop -/

theorem readChunks_nil (fuel : Nat) : readChunks fuel [] = [] := by
  cases fuel <;> simp [readChunks, fgets_nil]

theorem readChunks_cons (fuel : Nat) (c : Byte) (s : List Byte) :
    readChunks (fuel + 1) (c :: s) =
      (fgetsRead 256 (c :: s)).1 :: readChunks fuel (fgetsRead 256 (c :: s)).2 := by
  simp only [readChunks, fgets_cons, List.dropLast_concat]

theorem readChunks_fuel :
    ∀ (fuel : Nat) (fp : List Byte), fp.length ≤ fuel →
      readChunks fuel fp = readChunks fp.length fp := by
  intro fuel
  induction fuel using Nat.strong_induction_on with
  | _ fuel ih =>
    intro fp hfp
    cases fp with
    | nil => simp [readChunks_nil]
    | cons c s =>
      cases fuel with
      | zero => simp at hfp
      | succ fuel =>
        have hr : (fgetsRead 256 (c :: s)).2.length ≤ s.length := fgetsRead_rest_length 255 c s
        simp only [List.length_cons] at hfp
        rw [readChunks_cons, List.length_cons, readChunks_cons,
          ih fuel (Nat.lt_succ_self _) _ (by omega)]
        by_cases hs : s.length = fuel
        · rw [hs]
          rw [ih fuel (Nat.lt_succ_self _) _ (by omega)]
        · rw [ih s.length (by omega) _ hr]

theorem reads_nil : reads [] = [] := rfl

theorem reads_cons (c : Byte) (s : List Byte) :
    reads (c :: s) = (fgetsRead 256 (c :: s)).1 :: reads (fgetsRead 256 (c :: s)).2 := by
  unfold reads
  rw [List.length_cons, readChunks_cons,
    readChunks_fuel s.length _
      (show (fgetsRead 256 (c :: s)).2.length ≤ s.length from fgetsRead_rest_length 255 c s)]

theorem fgetsRead_pos (c : Byte) (s : List Byte) :
    1 ≤ (fgetsRead 256 (c :: s)).1.length := by
  by_cases hc : c = LF <;> simp [fgetsRead, hc]

/-- Every read takes between 1 and 256 bytes, and the reads taken together are
the input. -/
theorem reads_spec (fp : List Byte) :
    (∀ c ∈ reads fp, 1 ≤ c.length ∧ c.length ≤ 256) ∧ (reads fp).flatten = fp ∧
      (reads fp).length ≤ fp.length := by
  obtain ⟨n, h⟩ : ∃ n, fp.length = n := ⟨_, rfl⟩
  induction n using Nat.strong_induction_on generalizing fp with
  | _ n ih =>
    cases fp with
    | nil => simp [reads_nil]
    | cons c s =>
      have hr : (fgetsRead 256 (c :: s)).2.length ≤ s.length := fgetsRead_rest_length 255 c s
      simp only [List.length_cons] at h
      obtain ⟨h1, h2, h3⟩ := ih (fgetsRead 256 (c :: s)).2.length (by omega) _ rfl
      rw [reads_cons]
      refine ⟨?_, ?_, ?_⟩
      · intro x hx
        rcases List.mem_cons.mp hx with hx | hx
        · rw [hx]
          exact ⟨fgetsRead_pos c s, fgetsRead_length_le 256 _⟩
        · exact h1 x hx
      · rw [List.flatten_cons, h2]
        exact fgetsRead_append 256 (c :: s)
      · simp only [List.length_cons]
        omega

/-- After as many iterations as there are reads, the input is used up and the
printed lines are complete. -/
theorem reads_enough (wordLen : Nat) :
    ∀ (fuel : Nat) (fp : List Byte), (reads fp).length ≤ fuel →
      unreadAfter fuel fp = [] ∧ printedLines wordLen fuel fp = printed wordLen fp := by
  intro fuel
  induction fuel with
  | zero =>
    intro fp h
    cases fp with
    | nil => exact ⟨rfl, rfl⟩
    | cons c s =>
      rw [reads_cons] at h
      simp at h
  | succ fuel ih =>
    intro fp h
    cases fp with
    | nil => exact ⟨by simp [unreadAfter, fgets_nil], printedLines_nil _ _⟩
    | cons c s =>
      rw [reads_cons, List.length_cons] at h
      obtain ⟨h1, h2⟩ := ih (fgetsRead 256 (c :: s)).2 (by omega)
      refine ⟨?_, ?_⟩
      · simp only [unreadAfter, fgets_cons]
        exact h1
      · rw [printedLines_cons, h2, printed_cons]

/-- Before as many iterations as there are reads, input is left. -/
theorem reads_needed :
    ∀ (fuel : Nat) (fp : List Byte), fuel < (reads fp).length → unreadAfter fuel fp ≠ [] := by
  intro fuel
  induction fuel with
  | zero =>
    intro fp h
    cases fp with
    | nil => simp [reads_nil] at h
    | cons c s => simp [unreadAfter]
  | succ fuel ih =>
    intro fp h
    cases fp with
    | nil => simp [reads_nil] at h
    | cons c s =>
      rw [reads_cons, List.length_cons] at h
      simp only [unreadAfter, fgets_cons]
      exact ih _ (by omega)

/-- C19: the read loop of `WriteNewDictionary` terminates.  Every successful
read takes at least 1 and at most 256 input bytes, the reads in order make up
the input (each byte is taken by exactly one read), the number of reads is at
most the number of input bytes, and the loop has used up the input and reached
its final state after exactly that many iterations: with fewer iterations input
is left, with that many or more the state is the final one. -/
theorem C19_termination (fp : List Byte) (wordLen : Nat) :
    (∀ c ∈ reads fp, 1 ≤ c.length ∧ c.length ≤ 256) ∧
      (reads fp).flatten = fp ∧
      (reads fp).length ≤ fp.length ∧
      (∀ fuel, fuel < (reads fp).length →
        (writeLoop wordLen fuel { fpIn := fp, fpOut := [], writtenLines := 0 }).fpIn ≠ []) ∧
      (∀ fuel, (reads fp).length ≤ fuel →
        writeLoop wordLen fuel { fpIn := fp, fpOut := [], writtenLines := 0 } =
          { fpIn := [], fpOut := (WriteNewDictionary fp wordLen).1,
            writtenLines := (WriteNewDictionary fp wordLen).2 }) := by
  obtain ⟨h1, h2, h3⟩ := reads_spec fp
  refine ⟨h1, h2, h3, ?_, ?_⟩
  · intro fuel hf
    rw [writeLoop_eq]
    exact reads_needed fuel fp hf
  · intro fuel hf
    obtain ⟨hu, hp⟩ := reads_enough wordLen fuel fp hf
    rw [WriteNewDictionary_eq, writeLoop_eq]
    simp only [hu, hp, List.nil_append, Nat.zero_add]
    congr 1
    by_cases h : printed wordLen fp = []
    · simp [h, u32]
    · simp [h]

end Redict
